import Mathlib

/-!
File-System-Scanner: work queue, worker loop and termination protocol

A shallow embedding of `scanner.c`: the growable circular work queue
(`queue_init`, `queue_resize`, `queue_push`, `queue_pop`), the traversal loop of
`worker_thread` as a small-step machine over a pool of workers that share the
queue, and `check_termination_condition`.

Modelling conventions.

* A C string is the list of its bytes before the terminating NUL (`CString`);
  `strncpy dst src n` leaves in `dst` the first `n` bytes of `src`.
* The `int` fields of `WorkQueue` are integers (`Int`), `%` is C's truncating
  remainder (`Int.tmod`).  In every state reached from `queue_init c` with
  `c ≥ 1` the fields lie between -1 and the number of allocated buffers
  (`WorkQueue.WF`), each of `MAX_PATH_LENGTH` bytes, and `queue_resize` asks
  for twice that number; the model describes the runs in which these numbers
  fit an `int` and `malloc` succeeds (its failure branch is
  `exit(EXIT_FAILURE)`).
* The mutex makes the body of `queue_push` and the two halves of `queue_pop`
  (before and after the wait loop) atomic; a worker waiting on `not_empty`
  has no step until the wait condition is false.
* `running` is the shutdown flag (`running = false` once shutdown is
  requested); `handle_signal` clears it.
* The file system is the pair of calls the worker makes, `opendir`/`readdir`
  and `lstat`, as functions of the path; it does not change during a run.
* `process_file` is recorded as a call: its argument is appended to a trace.
-/

namespace Scanner

/-! ## Definitions -/

/-- Bytes of a C string before the terminating NUL. -/
abbrev CString := List Char

def MAX_PATH_LENGTH : Nat := 4096

def MAX_THREADS : Nat := 8

/-- String held by `dst` after `strncpy(dst, src, n)`. -/
def strncpy (src : CString) (n : Nat) : CString := src.take n

structure ThreadStats where
  files_processed : Int
  dirs_processed : Int
deriving DecidableEq, Repr

structure WorkQueue where
  paths : List CString
  front : Int
  rear : Int
  count : Int
  capacity : Int
  waiting_threads : Int
  active_processes : Int
deriving DecidableEq, Repr

/-- String held by the buffer `paths[i]`. -/
def readAt (paths : List CString) (i : Int) : CString :=
  if 0 ≤ i then paths.getD i.toNat [] else []

/-- Read of `queue->paths[i]`. -/
def WorkQueue.slot (q : WorkQueue) (i : Int) : CString := readAt q.paths i

/-- Write of `s` into the buffer `paths[i]`. -/
def storeAt (paths : List CString) (i : Int) (s : CString) : List CString :=
  if 0 ≤ i then paths.set i.toNat s else paths

/-- Source lines 68-90: `queue_init`.  The freshly allocated buffers hold no string yet. -/
def queue_init (initial_capacity : Int) : WorkQueue :=
  { paths := List.replicate initial_capacity.toNat []
    front := 0
    rear := -1
    count := 0
    capacity := initial_capacity
    waiting_threads := 0
    active_processes := 0 }

/-- Source lines 117-120: the copy loop of `queue_resize`, for `i` from `0` below `n`. -/
def queue_resize_copy (q : WorkQueue) (n : Nat) (new_paths : List CString) : List CString :=
  (List.range n).foldl
    (fun (np : List CString) (i : Nat) => storeAt np (i : Int)
      (strncpy (q.slot ((q.front + (i : Int)).tmod q.capacity)) MAX_PATH_LENGTH))
    new_paths

/-- Source lines 102-131: `queue_resize`. -/
def queue_resize (q : WorkQueue) : WorkQueue :=
  let new_capacity := q.capacity * 2
  let new_paths := List.replicate new_capacity.toNat ([] : CString)
  let new_paths := queue_resize_copy q q.count.toNat new_paths
  { q with paths := new_paths, capacity := new_capacity, front := 0, rear := q.count - 1 }

/-- Source lines 135-137: the loop `while (count >= capacity && running) queue_resize(queue)`.
`none` when the loop is still running after `fuel` resizes. -/
def queue_push_grow : Nat → Bool → WorkQueue → Option WorkQueue
  | fuel, running, q =>
    if q.capacity ≤ q.count ∧ running = true then
      match fuel with
      | 0 => none
      | fuel + 1 => queue_push_grow fuel running (queue_resize q)
    else some q

/-- Source lines 133-148: `queue_push`, executed under the mutex with the flag `running`. -/
def queue_push (fuel : Nat) (running : Bool) (q : WorkQueue) (path : CString) :
    Option WorkQueue :=
  match queue_push_grow fuel running q with
  | none => none
  | some q =>
    if !running then some q
    else
      let rear := (q.rear + 1).tmod q.capacity
      some { q with rear := rear
                    paths := storeAt q.paths rear (strncpy path (MAX_PATH_LENGTH - 1))
                    count := q.count + 1 }

/-- Source lines 151-152 of `queue_pop`: lock and `waiting_threads++`. -/
def queue_pop_enter (q : WorkQueue) : WorkQueue :=
  { q with waiting_threads := q.waiting_threads + 1 }

/-- Source line 153 of `queue_pop`: the wait condition `count == 0 && running`. -/
def queue_pop_must_wait (running : Bool) (q : WorkQueue) : Bool :=
  q.count == 0 && running

/-- Source lines 156-166 of `queue_pop`: what happens once the wait loop is left.  `path`
is the caller's buffer; the result is the queue, the return value and the buffer. -/
def queue_pop_leave (q : WorkQueue) (path : CString) : WorkQueue × Int × CString :=
  let q := { q with waiting_threads := q.waiting_threads - 1 }
  if q.count == 0 then (q, 0, path)
  else
    let path := strncpy (q.slot q.front) MAX_PATH_LENGTH
    ({ q with front := (q.front + 1).tmod q.capacity, count := q.count - 1 }, 1, path)

/-- Source lines 150-167: `queue_pop` called on queue `q` while the flag is `running`.
`none` when the caller blocks in `pthread_cond_wait`. -/
def queue_pop (running : Bool) (q : WorkQueue) (path : CString) :
    Option (WorkQueue × Int × CString) :=
  let q := queue_pop_enter q
  if queue_pop_must_wait running q then none else some (queue_pop_leave q path)

/-- Push every path of the list in order, none of them under shutdown. -/
def push_all (fuel : Nat) : WorkQueue → List CString → Option WorkQueue
  | q, [] => some q
  | q, p :: ps =>
    match queue_push fuel true q p with
    | none => none
    | some q => push_all fuel q ps

/-- Call `queue_pop` `n` times, collecting each return value with the path it delivered. -/
def pop_n (running : Bool) : Nat → WorkQueue → Option (WorkQueue × List (Int × CString))
  | 0, q => some (q, [])
  | n + 1, q =>
    match queue_pop running q [] with
    | none => none
    | some (q, ret, path) =>
      match pop_n running n q with
      | none => none
      | some (q, out) => some (q, (ret, path) :: out)

/-- The logical content of the queue, oldest item first. -/
def WorkQueue.contents (q : WorkQueue) : List CString :=
  (List.range q.count.toNat).map
    (fun (i : Nat) => q.slot ((q.front + (i : Int)).tmod q.capacity))

/-- One call on the queue, with the value of the flag that the call observes. -/
inductive Call where
  | push (running : Bool) (path : CString)
  | pop (running : Bool)
  | resize
deriving DecidableEq, Repr

/-- The queue after one call; a `queue_pop` that blocks leaves its caller waiting. -/
def Call.apply (fuel : Nat) : Call → WorkQueue → Option WorkQueue
  | .push running path, q => queue_push fuel running q path
  | .pop running, q =>
    match queue_pop running q [] with
    | none => some (queue_pop_enter q)
    | some (q, _, _) => some q
  | .resize, q => some (queue_resize q)

/-- The queue after a sequence of calls. -/
def run_calls (fuel : Nat) : List Call → WorkQueue → Option WorkQueue
  | [], q => some q
  | c :: cs, q =>
    match c.apply fuel q with
    | none => none
    | some q => run_calls fuel cs q

/-- The representation invariant of the circular buffer. -/
structure WorkQueue.WF (q : WorkQueue) : Prop where
  cap_pos : 1 ≤ q.capacity
  len : (q.paths.length : Int) = q.capacity
  front_lo : 0 ≤ q.front
  front_hi : q.front < q.capacity
  count_lo : 0 ≤ q.count
  count_hi : q.count ≤ q.capacity
  rear_lo : -1 ≤ q.rear
  rear_hi : q.rear < q.capacity
  rear_eq : (q.rear + 1).tmod q.capacity = (q.front + q.count).tmod q.capacity

/-- Every buffer holds at most `MAX_PATH_LENGTH` bytes. -/
def WorkQueue.Buffers (q : WorkQueue) : Prop :=
  ∀ s ∈ q.paths, s.length ≤ MAX_PATH_LENGTH

/-- A full queue whose content `/a`, `/b`, `/c` wraps around the end of the buffer. -/
def wrapped_queue : WorkQueue :=
  { paths := ["/c".toList, "/a".toList, "/b".toList]
    front := 1
    rear := 0
    count := 3
    capacity := 3
    waiting_threads := 0
    active_processes := 0 }

instance (q : WorkQueue) : Decidable q.Buffers := by
  unfold WorkQueue.Buffers
  infer_instance


/-- The two calls the worker makes on the directory tree.  `opendir path` is `none` when
the directory cannot be opened, otherwise the `d_name`s that `readdir` will deliver, in
order; `lstat path` is `none` on failure, otherwise whether `S_ISDIR(st_mode)` holds. -/
structure FileSystem where
  opendir : CString → Option (List CString)
  lstat : CString → Option Bool

/-- Where a worker stands in `worker_thread`. -/
inductive Loc where
  /-- Source line 326: about to test `while (running)`. -/
  | loop_top
  /-- Source line 153: inside `queue_pop`, `waiting_threads` incremented, in the wait loop. -/
  | in_pop
  /-- Source line 330: `queue_pop` returned 1, `atomic_fetch_add` not yet executed. -/
  | popped
  /-- Source line 331: about to call `opendir(path)`. -/
  | opening
  /-- Source line 338: in the `readdir` loop; `entries` are the names not yet delivered. -/
  | reading (entries : List CString)
  /-- Source line 357: `process_file(full_path)` done for a directory, `queue_push` not yet. -/
  | pushing (entries : List CString) (full_path : CString)
  /-- Source line 363: after `closedir`, about to execute `atomic_fetch_sub`. -/
  | closing
  /-- Source line 364: about to call `check_termination_condition`. -/
  | checking
  /-- Source line 366: `pthread_exit`. -/
  | exited
deriving DecidableEq, Repr

/-- The locals of one `worker_thread`: its position, its `path` buffer and its entry of
`thread_stats`. -/
structure Worker where
  loc : Loc
  path : CString
  stats : ThreadStats
deriving DecidableEq, Repr

/-- The globals `work_queue` and `running`, the workers, and the arguments of the
`process_file` calls made so far, oldest first. -/
structure State where
  work_queue : WorkQueue
  running : Bool
  workers : List Worker
  process_file_calls : List CString
deriving DecidableEq, Repr

/-- Source lines 178-182: `handle_signal`. -/
def handle_signal (s : State) : State := { s with running := false }

/-- Source lines 169-176: `check_termination_condition`; `kill(getpid(), SIGTERM)` runs
`handle_signal`. -/
def check_termination_condition (s : State) : State :=
  let active := s.work_queue.active_processes
  if active == 0 && s.work_queue.count == 0 then handle_signal s else s

/-- The global `work_queue` with `n` added to `active_processes`. -/
def atomic_fetch_add (s : State) (n : Int) : State :=
  { s with work_queue :=
      { s.work_queue with active_processes := s.work_queue.active_processes + n } }

/-- Source lines 231-317: `process_file(path)`, recorded as a call. -/
def process_file (s : State) (path : CString) : State :=
  { s with process_file_calls := s.process_file_calls ++ [path] }

/-- The string `snprintf(full_path, MAX_PATH_LENGTH, "%s/%s", path, d_name)` asks for. -/
def join_path (path d_name : CString) : CString := path ++ '/' :: d_name

/-- Source lines 320-367: `worker_thread`, one atomic step of it by the worker `w` on the
shared state `s`.  `none` when the worker has no step: it waits in `queue_pop`, it has
exited, or the growth loop of `queue_push` is not over within `fuel` resizes. -/
def worker_thread (fuel : Nat) (fs : FileSystem) (s : State) (w : Worker) :
    Option (State × Worker) :=
  match w.loc with
  | .loop_top =>
    if s.running then
      some ({ s with work_queue := queue_pop_enter s.work_queue }, { w with loc := .in_pop })
    else some (s, { w with loc := .exited })
  | .in_pop =>
    if queue_pop_must_wait s.running s.work_queue then none
    else
      match queue_pop_leave s.work_queue w.path with
      | (q, ret, path) =>
        if ret == 0 then
          some ({ s with work_queue := q }, { w with loc := .exited, path := path })
        else some ({ s with work_queue := q }, { w with loc := .popped, path := path })
  | .popped => some (atomic_fetch_add s 1, { w with loc := .opening })
  | .opening =>
    match fs.opendir w.path with
    | none => some (atomic_fetch_add s (-1), { w with loc := .loop_top })
    | some entries => some (s, { w with loc := .reading entries })
  | .reading [] => some (s, { w with loc := .closing })
  | .reading (d_name :: rest) =>
    if !s.running then some (s, { w with loc := .closing })
    else if d_name = ['.'] ∨ d_name = ['.', '.'] then some (s, { w with loc := .reading rest })
    else if MAX_PATH_LENGTH ≤ (join_path w.path d_name).length then
      some (s, { w with loc := .reading rest })
    else
      match fs.lstat (join_path w.path d_name) with
      | none => some (s, { w with loc := .reading rest })
      | some is_dir =>
        let s := process_file s (join_path w.path d_name)
        if is_dir then
          some (s, { w with loc := .pushing rest (join_path w.path d_name)
                            stats := { w.stats with
                              dirs_processed := w.stats.dirs_processed + 1 } })
        else
          some (s, { w with loc := .reading rest
                            stats := { w.stats with
                              files_processed := w.stats.files_processed + 1 } })
  | .pushing rest full_path =>
    match queue_push fuel s.running s.work_queue full_path with
    | none => none
    | some q => some ({ s with work_queue := q }, { w with loc := .reading rest })
  | .closing => some (atomic_fetch_add s (-1), { w with loc := .checking })
  | .checking => some (check_termination_condition s, { w with loc := .loop_top })
  | .exited => none

/-- Worker `i` takes its next step. -/
def step (fuel : Nat) (fs : FileSystem) (i : Nat) (s : State) : Option State :=
  match s.workers[i]? with
  | none => none
  | some w =>
    match worker_thread fuel fs s w with
    | none => none
    | some (s, w) => some { s with workers := s.workers.set i w }

/-- Source lines 388 and 471-480 of `main`: the queue is created with capacity 100 and seeded
with the root path `argv[1]` (the queue is empty, so this `queue_push` does not enter its
growth loop), then `n` workers are started (`MAX_THREADS` of them in the source), each with
its counters reset (lines 323-324). -/
def main (root : CString) (n : Nat) : Option State :=
  match queue_push 0 true (queue_init 100) root with
  | none => none
  | some q =>
    some { work_queue := q
           running := true
           workers := List.replicate n { loc := .loop_top, path := [], stats := ⟨0, 0⟩ }
           process_file_calls := [] }

/-- What can happen next: some worker steps, or a signal arrives from outside. -/
inductive Event where
  | worker (i : Nat)
  | signal
deriving DecidableEq, Repr

def Event.apply (fuel : Nat) (fs : FileSystem) : Event → State → Option State
  | .worker i, s => step fuel fs i s
  | .signal, s => some (handle_signal s)

/-- The state after a sequence of events, `none` if one of them cannot happen. -/
def run_events (fuel : Nat) (fs : FileSystem) : List Event → State → Option State
  | [], s => some s
  | e :: es, s =>
    match e.apply fuel fs s with
    | none => none
    | some s => run_events fuel fs es s

/-- States the engine can be in: after any events from the start state. -/
inductive Reachable (fuel : Nat) (fs : FileSystem) (s0 : State) : State → Prop where
  | start : Reachable fuel fs s0 s0
  | next (s s' : State) (e : Event) :
      Reachable fuel fs s0 s → e.apply fuel fs s = some s' → Reachable fuel fs s0 s'

/-- A worker that has executed `atomic_fetch_add(.., 1)` and not yet its
`atomic_fetch_sub(.., 1)`. -/
def Worker.counted (w : Worker) : Bool :=
  match w.loc with
  | .opening | .reading _ | .pushing _ _ | .closing => true
  | _ => false

/-- The only worker of a one-worker engine takes `n` steps. -/
def run_solo (fuel : Nat) (fs : FileSystem) : Nat → State → Option State
  | 0, s => some s
  | n + 1, s =>
    match step fuel fs 0 s with
    | none => none
    | some s => run_solo fuel fs n s

/-- The entries of a directory in `readdir` order, each a file or a directory with its own
entries; `readable` is whether `opendir` succeeds on the directory. -/
inductive Listing where
  | nil : Listing
  | file (name : CString) (rest : Listing) : Listing
  | dir (name : CString) (readable : Bool) (children : Listing) (rest : Listing) : Listing
deriving DecidableEq, Repr

/-- The names of the entries of one directory. -/
def Listing.names : Listing → List CString
  | .nil => []
  | .file name rest => name :: rest.names
  | .dir name _ _ rest => name :: rest.names

/-- The number F of non-directory entries below a directory. -/
def Listing.files : Listing → Nat
  | .nil => 0
  | .file _ rest => 1 + rest.files
  | .dir _ _ children rest => children.files + rest.files

/-- The number of directories below a directory, itself not counted (D - 1 at the root). -/
def Listing.dirs : Listing → Nat
  | .nil => 0
  | .file _ rest => rest.dirs
  | .dir _ _ children rest => 1 + children.dirs + rest.dirs

/-- The paths of all entries below the directory at `parent`, one per entry. -/
def Listing.paths (parent : CString) : Listing → List CString
  | .nil => []
  | .file name rest => join_path parent name :: rest.paths parent
  | .dir name _ children rest =>
    join_path parent name :: (children.paths (join_path parent name) ++ rest.paths parent)

/-- Every directory below can be opened. -/
def Listing.all_readable : Listing → Bool
  | .nil => true
  | .file _ rest => rest.all_readable
  | .dir _ readable children rest => readable && children.all_readable && rest.all_readable

/-- A name that is neither `.` nor `..`. -/
def not_dot (d_name : CString) : Bool := !(d_name = ['.'] ∨ d_name = ['.', '.'])

/-- What `opendir` answers for a directory with the given entries: its names, with `.` and
`..` anywhere among them, or failure when the directory is not readable. -/
def opens_as (fs : FileSystem) (path : CString) (readable : Bool) (l : Listing) : Bool :=
  match fs.opendir path with
  | none => !readable
  | some raw => readable && decide (raw.filter not_dot = l.names)

/-- The file system answers `lstat` and `opendir` for every entry below `parent` as the
listing says. -/
def FileSystem.hosts_entries (fs : FileSystem) (parent : CString) : Listing → Bool
  | .nil => true
  | .file name rest =>
    decide (fs.lstat (join_path parent name) = some false) && fs.hosts_entries parent rest
  | .dir name readable children rest =>
    decide (fs.lstat (join_path parent name) = some true) &&
    opens_as fs (join_path parent name) readable children &&
    fs.hosts_entries (join_path parent name) children &&
    fs.hosts_entries parent rest

/-- The file system holds, at `root`, a readable directory with exactly the tree `l` below. -/
def FileSystem.hosts (fs : FileSystem) (root : CString) (l : Listing) : Bool :=
  opens_as fs root true l && fs.hosts_entries root l

/-- The entry of the tree below `parent` whose path is `target`: whether it is a directory,
whether it is readable, and its entries. -/
def Listing.lookup (parent target : CString) : Listing → Option (Bool × Bool × Listing)
  | .nil => none
  | .file name rest =>
    if join_path parent name = target then some (false, false, .nil)
    else rest.lookup parent target
  | .dir name readable children rest =>
    if join_path parent name = target then some (true, readable, children)
    else
      match children.lookup (join_path parent name) target with
      | some found => some found
      | none => rest.lookup parent target

/-- The static directory tree `l` rooted at `root`, as the worker sees it through `opendir`,
`readdir` and `lstat`. -/
def tree_fs (root : CString) (l : Listing) : FileSystem where
  opendir := fun path =>
    if path = root then some (['.'] :: ['.', '.'] :: l.names)
    else
      match l.lookup root path with
      | some (true, true, children) => some (['.'] :: ['.', '.'] :: children.names)
      | _ => none
  lstat := fun path =>
    if path = root then some true
    else
      match l.lookup root path with
      | some (is_dir, _, _) => some is_dir
      | none => none

/-- The example tree of the specification: `a.txt`, `sub/`, `sub/b.log`. -/
def example_tree : Listing :=
  .file "a.txt".toList (.dir "sub".toList true (.file "b.log".toList .nil) .nil)

/-- A tree with an unreadable directory `u` holding `x.txt`, and an empty directory `v`. -/
def unreadable_tree : Listing :=
  .dir "u".toList false (.file "x.txt".toList .nil) (.dir "v".toList true .nil .nil)

/-- A tree whose only entry is an unreadable directory `sub`. -/
def locked_tree : Listing :=
  .dir "sub".toList false .nil .nil

/-- Worker `i` takes `n` steps in a row. -/
def steps_of (i n : Nat) : List Event := List.replicate n (Event.worker i)

/-- Worker 0 enumerates the root of the example tree and pushes `root/sub`; worker 1 pops
it; worker 0 then leaves the directory and decrements the counter. -/
def early_check_schedule : List Event := steps_of 0 9 ++ steps_of 1 2 ++ steps_of 0 2

/-- The run on the example tree up to the moment worker 0 is about to run the check. -/
def early_check_state : Option State :=
  (main "root".toList MAX_THREADS).bind
    (run_events 1 (tree_fs "root".toList example_tree) early_check_schedule)

/-- After the check of worker 0: every worker runs until it exits. -/
def early_check_rest : List Event :=
  steps_of 0 1 ++ steps_of 1 6 ++ steps_of 2 1 ++ steps_of 3 1 ++ steps_of 4 1 ++
    steps_of 5 1 ++ steps_of 6 1 ++ steps_of 7 1

/-- Worker 0 traverses the root, then fails to open `root/sub` and calls `queue_pop` again;
the other workers call `queue_pop`. -/
def stuck_schedule : List Event :=
  steps_of 0 16 ++ steps_of 1 1 ++ steps_of 2 1 ++ steps_of 3 1 ++ steps_of 4 1 ++
    steps_of 5 1 ++ steps_of 6 1 ++ steps_of 7 1

/-- The run on the locked tree after `stuck_schedule`. -/
def stuck_state : Option State :=
  (main "root".toList MAX_THREADS).bind
    (run_events 1 (tree_fs "root".toList locked_tree) stuck_schedule)

/-- Worker 0 classifies `a.txt` of the example tree, a signal arrives, worker 0 runs on
until it exits. -/
def interrupted_schedule : List Event := steps_of 0 7 ++ [Event.signal] ++ steps_of 0 4

/-- A one-worker engine. -/
def solo (q : WorkQueue) (running : Bool) (w : Worker) (calls : List CString) : State :=
  { work_queue := q, running := running, workers := [w], process_file_calls := calls }

/-- The number of entries below a directory. -/
def Listing.size : Listing → Nat
  | .nil => 0
  | .file _ rest => 1 + rest.size
  | .dir _ _ children rest => 1 + children.size + rest.size

/-- The paths of the entries of the directory at `parent` itself, in `readdir` order. -/
def Listing.entry_paths (parent : CString) : Listing → List CString
  | .nil => []
  | .file name rest => join_path parent name :: rest.entry_paths parent
  | .dir name _ _ rest => join_path parent name :: rest.entry_paths parent

/-- The subdirectories of the directory at `parent`, each with its path and its entries. -/
def Listing.subdirs (parent : CString) : Listing → List (CString × Listing)
  | .nil => []
  | .file _ rest => rest.subdirs parent
  | .dir name _ children rest => (join_path parent name, children) :: rest.subdirs parent

/-- The entries below all the directories of a work list. -/
def pending_paths : List (CString × Listing) → List CString
  | [] => []
  | pl :: rest => pl.2.paths pl.1 ++ pending_paths rest

/-- The size of a work list: one for each directory on it and one for each entry below. -/
def pending_size : List (CString × Listing) → Nat
  | [] => 0
  | pl :: rest => pl.2.size + 1 + pending_size rest

/-- What the traversal needs of a directory on the work list: its path fits the buffer, it
opens and lists its entries, every entry below can be examined, opened if a directory, and
has a path that fits. -/
def traversable (fs : FileSystem) (pl : CString × Listing) : Prop :=
  pl.1.length < MAX_PATH_LENGTH ∧ opens_as fs pl.1 true pl.2 = true ∧
    fs.hosts_entries pl.1 pl.2 = true ∧ pl.2.all_readable = true ∧
    ∀ p ∈ pl.2.paths pl.1, p.length < MAX_PATH_LENGTH

/-- The one-worker run on the example tree at the moment the signal has arrived: the worker
has classified `a.txt` and `sub` is still to be read. -/
def interrupted_state : Option State :=
  (main "root".toList 1).bind
    (run_events 1 (tree_fs "root".toList example_tree) (steps_of 0 7 ++ [Event.signal]))

/-- The file system answers for the directory at `pl.1` as the listing `pl.2` says, readable
or not. -/
def dir_ok (fs : FileSystem) (pl : CString × Listing) : Prop :=
  (∃ readable, opens_as fs pl.1 readable pl.2 = true) ∧ fs.hosts_entries pl.1 pl.2 = true

/-- The entries a worker may still pass to `process_file` or hand to the queue, given where
it stands: those below the directory it has popped, below the entries it has not yet read,
and below the subdirectory it is about to push. -/
def owes (fs : FileSystem) (w : Worker) (owed : List CString) : Prop :=
  match w.loc with
  | .popped | .opening => ∃ l, dir_ok fs (w.path, l) ∧ owed = l.paths w.path
  | .reading raw =>
    ∃ l, raw.filter not_dot = l.names ∧ fs.hosts_entries w.path l = true ∧
      owed = l.paths w.path
  | .pushing raw full_path =>
    ∃ l children, raw.filter not_dot = l.names ∧ fs.hosts_entries w.path l = true ∧
      dir_ok fs (full_path, children) ∧ full_path.length < MAX_PATH_LENGTH ∧
      owed = children.paths full_path ++ l.paths w.path
  | _ => owed = []

/-- The bookkeeping behind "at most once": the queue holds directories of the tree, each
worker owes what `owes` says, and no path is called, queued and owed more often in total
than it occurs in the tree below `root`. -/
def accounted (fs : FileSystem) (root : CString) (l : Listing) (s : State) : Prop :=
  s.work_queue.WF ∧
  ∃ (pending : List (CString × Listing)) (owed : List (List CString)),
    s.work_queue.contents = pending.map Prod.fst ∧
    (∀ pl ∈ pending, dir_ok fs pl ∧ pl.1.length < MAX_PATH_LENGTH) ∧
    List.Forall₂ (owes fs) s.workers owed ∧
    ∀ x, s.process_file_calls.count x + (pending_paths pending).count x +
      (owed.map (List.count x)).sum ≤ (l.paths root).count x

/-! ## The circular buffer -/

theorem tmod_of_lt {a c : Int} (h0 : 0 ≤ a) (h : a < c) : a.tmod c = a := by
  rw [Int.tmod_eq_emod h0 (by omega)]
  exact Int.emod_eq_of_lt h0 h

theorem tmod_of_wrap {a c : Int} (h1 : c ≤ a) (h2 : a < 2 * c) : a.tmod c = a - c := by
  rw [Int.tmod_eq_emod (by omega) (by omega)]
  have e : a % c = (a - c) % c := by simp
  rw [e]
  exact Int.emod_eq_of_lt (by omega) (by omega)

theorem tmod_range {a c : Int} (h0 : 0 ≤ a) (h2 : a < 2 * c) :
    (a < c ∧ a.tmod c = a) ∨ (c ≤ a ∧ a.tmod c = a - c) := by
  by_cases h : a < c
  · exact Or.inl ⟨h, tmod_of_lt h0 h⟩
  · exact Or.inr ⟨by omega, tmod_of_wrap (by omega) h2⟩

theorem readAt_storeAt_same (paths : List CString) (i : Int) (s : CString)
    (h0 : 0 ≤ i) (h1 : i < paths.length) : readAt (storeAt paths i s) i = s := by
  have : i.toNat < paths.length := by omega
  simp [readAt, storeAt, h0, List.getD_eq_getElem?_getD, this]

theorem readAt_storeAt_other (paths : List CString) (i j : Int) (s : CString)
    (h : i ≠ j) (hj : 0 ≤ j) : readAt (storeAt paths i s) j = readAt paths j := by
  unfold readAt storeAt
  by_cases h0 : 0 ≤ i
  · have : i.toNat ≠ j.toNat := by omega
    simp [h0, hj, List.getD_eq_getElem?_getD, List.getElem?_set_ne this]
  · simp [h0]

theorem length_storeAt (paths : List CString) (i : Int) (s : CString) :
    (storeAt paths i s).length = paths.length := by
  unfold storeAt
  split <;> simp

theorem length_queue_resize_copy (q : WorkQueue) (n : Nat) (np : List CString) :
    (queue_resize_copy q n np).length = np.length := by
  induction n with
  | zero => simp [queue_resize_copy]
  | succ n ih =>
    simp only [queue_resize_copy, List.range_succ, List.foldl_append, List.foldl_cons,
      List.foldl_nil, length_storeAt] at ih ⊢
    exact ih

theorem readAt_queue_resize_copy (q : WorkQueue) (n : Nat) (np : List CString) (i : Nat) :
    readAt (queue_resize_copy q n np) (i : Int) =
      if i < n ∧ i < np.length then
        strncpy (q.slot ((q.front + (i : Int)).tmod q.capacity)) MAX_PATH_LENGTH
      else readAt np (i : Int) := by
  induction n with
  | zero => simp [queue_resize_copy]
  | succ n ih =>
    have hl := length_queue_resize_copy q n np
    simp only [queue_resize_copy, List.range_succ, List.foldl_append, List.foldl_cons,
      List.foldl_nil] at ih hl ⊢
    by_cases hin : i = n
    · subst hin
      by_cases hlen : i < np.length
      · rw [readAt_storeAt_same _ _ _ (by omega) (by omega)]
        simp [hlen]
      · have e1 : ∀ (l : List CString) (s : CString), l.length = np.length →
            readAt (storeAt l (i : Int) s) (i : Int) = [] := by
          intro l s hl
          unfold readAt storeAt
          have : (l.set i s)[i]? = none := List.getElem?_eq_none (by simp; omega)
          simp [List.getD_eq_getElem?_getD, this]
        rw [e1 _ _ hl]
        have : readAt np (i : Int) = [] := by
          unfold readAt
          have : np[i]? = none := List.getElem?_eq_none (by omega)
          simp [List.getD_eq_getElem?_getD, this]
        simp [hlen, this]
    · rw [readAt_storeAt_other _ _ _ _ (by omega) (by omega), ih]
      have : (i < n + 1) ↔ (i < n) := by omega
      simp [this]

theorem strncpy_of_le {s : CString} {n : Nat} (h : s.length ≤ n) : strncpy s n = s := by
  unfold strncpy
  exact List.take_of_length_le h

theorem readAt_mem_or_nil (paths : List CString) (i : Int) :
    readAt paths i ∈ paths ∨ readAt paths i = [] := by
  unfold readAt
  by_cases h0 : 0 ≤ i
  · by_cases h1 : i.toNat < paths.length
    · left
      simp [h0, List.getD_eq_getElem?_getD, h1]
    · right
      have : paths[i.toNat]? = none := List.getElem?_eq_none (by omega)
      simp [h0, List.getD_eq_getElem?_getD, this]
  · simp [h0]

theorem WorkQueue.Buffers.slot_le {q : WorkQueue} (h : q.Buffers) (i : Int) :
    (q.slot i).length ≤ MAX_PATH_LENGTH := by
  rcases readAt_mem_or_nil q.paths i with hm | hn
  · exact h _ hm
  · simp [WorkQueue.slot, hn]

theorem queue_resize_slot (q : WorkQueue) (i : Nat) (h1 : (i : Int) < q.count)
    (h2 : q.count ≤ q.capacity * 2) :
    (queue_resize q).slot (i : Int) =
      strncpy (q.slot ((q.front + (i : Int)).tmod q.capacity)) MAX_PATH_LENGTH := by
  simp only [queue_resize, WorkQueue.slot]
  rw [readAt_queue_resize_copy]
  have : i < q.count.toNat ∧ i < (List.replicate (q.capacity * 2).toNat ([] : CString)).length := by
    simp
    omega
  simp only [this, and_self, if_true, WorkQueue.slot]

theorem queue_resize_contents_of_le (q : WorkQueue) (h3 : q.count ≤ q.capacity * 2) :
    (queue_resize q).contents = q.contents.map (fun s => strncpy s MAX_PATH_LENGTH) := by
  unfold WorkQueue.contents
  rw [List.map_map]
  have hc : (queue_resize q).count = q.count := rfl
  have hf : (queue_resize q).front = 0 := rfl
  have hcap : (queue_resize q).capacity = q.capacity * 2 := rfl
  rw [hc, hf, hcap]
  apply List.map_congr_left
  intro i hi
  have hi' : i < q.count.toNat := List.mem_range.mp hi
  have : ((0 : Int) + (i : Int)).tmod (q.capacity * 2) = (i : Int) := by
    rw [tmod_of_lt (by omega) (by omega)]
    omega
  rw [this, queue_resize_slot q i (by omega) (by omega)]
  rfl

theorem queue_resize_contents (q : WorkQueue) (h : q.WF) :
    (queue_resize q).contents = q.contents.map (fun s => strncpy s MAX_PATH_LENGTH) := by
  have h1 := h.cap_pos
  have h3 := h.count_hi
  exact queue_resize_contents_of_le q (by omega)

theorem queue_resize_WF (q : WorkQueue) (h : q.WF) : (queue_resize q).WF := by
  have h1 := h.cap_pos
  have h2 := h.count_lo
  have h3 := h.count_hi
  refine ⟨?_, ?_, ?_, ?_, ?_, ?_, ?_, ?_, ?_⟩
  · show 1 ≤ q.capacity * 2
    omega
  · show ((queue_resize_copy q q.count.toNat
      (List.replicate (q.capacity * 2).toNat ([] : CString))).length : Int) = q.capacity * 2
    rw [length_queue_resize_copy]
    simp
    omega
  · show (0 : Int) ≤ 0
    omega
  · show (0 : Int) < q.capacity * 2
    omega
  · exact h2
  · show q.count ≤ q.capacity * 2
    omega
  · show -1 ≤ q.count - 1
    omega
  · show q.count - 1 < q.capacity * 2
    omega
  · show (q.count - 1 + 1).tmod (q.capacity * 2) = (0 + q.count).tmod (q.capacity * 2)
    simp

theorem queue_push_grow_of_WF (fuel : Nat) (running : Bool) (q : WorkQueue) (h : q.WF)
    (hf : 1 ≤ fuel) :
    queue_push_grow fuel running q =
      some (if q.capacity ≤ q.count ∧ running = true then queue_resize q else q) := by
  have h1 := h.cap_pos
  have h2 := h.count_lo
  have h3 := h.count_hi
  obtain ⟨f, rfl⟩ : ∃ f, fuel = f + 1 := ⟨fuel - 1, by omega⟩
  by_cases hc : q.capacity ≤ q.count ∧ running = true
  · obtain ⟨hc1, rfl⟩ := hc
    rw [queue_push_grow]
    have hn : ¬ ((queue_resize q).capacity ≤ (queue_resize q).count) := by
      have e1 : (queue_resize q).capacity = q.capacity * 2 := rfl
      have e2 : (queue_resize q).count = q.count := rfl
      rw [e1, e2]
      omega
    cases f <;> simp [queue_push_grow, hn, hc1]
  · simp [queue_push_grow, hc]

theorem queue_push_running (fuel : Nat) (q : WorkQueue) (path : CString) (h : q.WF)
    (hf : 1 ≤ fuel) :
    ∃ q', queue_push fuel true q path = some q' ∧ q'.WF ∧
      q'.contents = q.contents.map (fun s => if q.capacity ≤ q.count then
        strncpy s MAX_PATH_LENGTH else s) ++ [strncpy path (MAX_PATH_LENGTH - 1)] ∧
      q'.count = q.count + 1 ∧
      (q'.capacity = q.capacity ∨ (q.count = q.capacity ∧ q'.capacity = 2 * q.capacity)) ∧
      q'.waiting_threads = q.waiting_threads ∧ q'.active_processes = q.active_processes := by
  -- the queue after the growth loop
  obtain ⟨g, hg, hgwf, hgc, hgcount, hglt, hgcap, hgw, hga⟩ : ∃ g,
      queue_push_grow fuel true q = some g ∧ g.WF ∧
      g.contents = q.contents.map (fun s => if q.capacity ≤ q.count then
        strncpy s MAX_PATH_LENGTH else s) ∧ g.count = q.count ∧ g.count < g.capacity ∧
      (g.capacity = q.capacity ∨ (q.count = q.capacity ∧ g.capacity = 2 * q.capacity)) ∧
      g.waiting_threads = q.waiting_threads ∧ g.active_processes = q.active_processes := by
    rw [queue_push_grow_of_WF fuel true q h hf]
    have h1 := h.cap_pos
    have h2 := h.count_lo
    have h3 := h.count_hi
    by_cases hc : q.capacity ≤ q.count
    · refine ⟨queue_resize q, by simp [hc], queue_resize_WF q h, ?_, rfl, ?_, ?_, rfl, rfl⟩
      · rw [queue_resize_contents q h]
        simp [hc]
      · show q.count < q.capacity * 2
        omega
      · right
        refine ⟨by omega, ?_⟩
        show q.capacity * 2 = 2 * q.capacity
        omega
    · refine ⟨q, by simp [hc], h, by simp [hc], rfl, by omega, Or.inl rfl, rfl, rfl⟩
  have g1 := hgwf.cap_pos
  have g2 := hgwf.count_lo
  have g3 := hgwf.front_lo
  have g4 := hgwf.front_hi
  have g5 := hgwf.len
  have g6 := hgwf.rear_eq
  -- position of the new item
  have hrear : (g.rear + 1).tmod g.capacity = (g.front + g.count).tmod g.capacity := g6
  have hpos : 0 ≤ (g.front + g.count).tmod g.capacity ∧
      (g.front + g.count).tmod g.capacity < g.capacity := by
    rcases tmod_range (a := g.front + g.count) (c := g.capacity) (by omega) (by omega) with
      ⟨_, e⟩ | ⟨_, e⟩ <;> rw [e] <;> omega
  refine ⟨{ g with rear := (g.rear + 1).tmod g.capacity
                   paths := storeAt g.paths ((g.rear + 1).tmod g.capacity)
                     (strncpy path (MAX_PATH_LENGTH - 1))
                   count := g.count + 1 }, ?_, ?_, ?_, ?_, hgcap, hgw, hga⟩
  · simp [queue_push, hg]
  · refine ⟨g1, ?_, g3, g4, ?_, ?_, ?_, ?_, ?_⟩
    · show ((storeAt g.paths _ _).length : Int) = g.capacity
      rw [length_storeAt]
      exact g5
    · show 0 ≤ g.count + 1
      omega
    · show g.count + 1 ≤ g.capacity
      omega
    · show -1 ≤ (g.rear + 1).tmod g.capacity
      rw [hrear]
      omega
    · show (g.rear + 1).tmod g.capacity < g.capacity
      rw [hrear]
      omega
    · show ((g.rear + 1).tmod g.capacity + 1).tmod g.capacity =
        (g.front + (g.count + 1)).tmod g.capacity
      rw [hrear]
      have e0 : g.front + (g.count + 1) = g.front + g.count + 1 := by omega
      rw [e0]
      rcases tmod_range (a := g.front + g.count) (c := g.capacity) (by omega) (by omega) with
        ⟨c1, e⟩ | ⟨c1, e⟩
      · rw [e]
      · rw [e, tmod_of_lt (a := g.front + g.count - g.capacity + 1) (by omega) (by omega),
          tmod_of_wrap (a := g.front + g.count + 1) (by omega) (by omega)]
        omega
  · rw [← hgc]
    unfold WorkQueue.contents
    show List.map _ (List.range (g.count + 1).toNat) = _
    have : (g.count + 1).toNat = g.count.toNat + 1 := by omega
    rw [this, List.range_succ, List.map_append]
    congr 1
    · apply List.map_congr_left
      intro i hi
      have hi' : i < g.count.toNat := List.mem_range.mp hi
      show readAt (storeAt g.paths _ _) ((g.front + (i : Int)).tmod g.capacity) = _
      rw [hrear]
      apply readAt_storeAt_other
      · rcases tmod_range (a := g.front + g.count) (c := g.capacity) (by omega) (by omega)
          with ⟨c1, e⟩ | ⟨c1, e⟩ <;> rw [e] <;>
        rcases tmod_range (a := g.front + (i : Int)) (c := g.capacity) (by omega)
          (by omega) with ⟨c2, e2⟩ | ⟨c2, e2⟩ <;> rw [e2] <;> omega
      · rcases tmod_range (a := g.front + (i : Int)) (c := g.capacity) (by omega)
          (by omega) with ⟨c2, e2⟩ | ⟨c2, e2⟩ <;> rw [e2] <;> omega
    · simp only [List.map_cons, List.map_nil]
      show [readAt (storeAt g.paths _ _) ((g.front + ((g.count.toNat : Nat) : Int)).tmod
        g.capacity)] = _
      have : ((g.count.toNat : Nat) : Int) = g.count := by omega
      rw [this, hrear, readAt_storeAt_same _ _ _ hpos.1 (by omega)]
  · show g.count + 1 = q.count + 1
    omega

theorem tmod_succ_shift {f c i : Int} (hf0 : 0 ≤ f) (hf1 : f < c) (hi0 : 0 ≤ i) (hi1 : i < c) :
    ((f + 1).tmod c + i).tmod c = (f + (i + 1)).tmod c := by
  have e0 : f + (i + 1) = f + 1 + i := by omega
  rw [e0]
  rcases tmod_range (a := f + 1) (c := c) (by omega) (by omega) with ⟨c1, e⟩ | ⟨c1, e⟩
  · rw [e]
  · rw [e]
    have : f + 1 - c = 0 := by omega
    rw [this, tmod_of_wrap (a := f + 1 + i) (by omega) (by omega),
      tmod_of_lt (a := 0 + i) (by omega) (by omega)]
    omega

theorem pop_fields (q q' : WorkQueue) (h : q.WF) (hc : 0 < q.count)
    (hp : q'.paths = q.paths) (hcap : q'.capacity = q.capacity)
    (hf : q'.front = (q.front + 1).tmod q.capacity) (hcnt : q'.count = q.count - 1)
    (hr : q'.rear = q.rear) :
    q'.WF ∧ q.contents = q.slot q.front :: q'.contents := by
  have h1 := h.cap_pos
  have h3 := h.front_lo
  have h4 := h.front_hi
  have h5 := h.count_hi
  have hfr : 0 ≤ (q.front + 1).tmod q.capacity ∧ (q.front + 1).tmod q.capacity < q.capacity := by
    rcases tmod_range (a := q.front + 1) (c := q.capacity) (by omega) (by omega) with
      ⟨_, e⟩ | ⟨_, e⟩ <;> rw [e] <;> omega
  constructor
  · refine ⟨by rw [hcap]; exact h1, by rw [hp, hcap]; exact h.len, by rw [hf]; exact hfr.1,
      by rw [hf, hcap]; exact hfr.2, by rw [hcnt]; omega, by rw [hcnt, hcap]; omega,
      by rw [hr]; exact h.rear_lo, by rw [hr, hcap]; exact h.rear_hi, ?_⟩
    rw [hr, hcap, hf, hcnt, h.rear_eq, tmod_succ_shift h3 h4 (by omega) (by omega)]
    have : q.front + (q.count - 1 + 1) = q.front + q.count := by omega
    rw [this]
  · unfold WorkQueue.contents WorkQueue.slot
    rw [hp, hcap, hf, hcnt]
    obtain ⟨n, hn⟩ : ∃ n : Nat, q.count.toNat = n + 1 := ⟨q.count.toNat - 1, by omega⟩
    have hn' : (q.count - 1).toNat = n := by omega
    rw [hn, hn', List.range_succ_eq_map, List.map_cons, List.map_map]
    congr 1
    · have : q.front + ((0 : Nat) : Int) = q.front := by simp
      rw [this, tmod_of_lt h3 h4]
    · apply List.map_congr_left
      intro i hi
      have hi' : i < n := List.mem_range.mp hi
      show readAt q.paths ((q.front + ((i + 1 : Nat) : Int)).tmod q.capacity) =
        readAt q.paths (((q.front + 1).tmod q.capacity + (i : Int)).tmod q.capacity)
      rw [tmod_succ_shift h3 h4 (by omega) (by omega)]
      have : ((i + 1 : Nat) : Int) = (i : Int) + 1 := by omega
      rw [this]

theorem queue_pop_leave_spec (q : WorkQueue) (buf : CString) (h : q.WF) (hc : 0 < q.count) :
    ∃ q', queue_pop_leave q buf = (q', 1, strncpy (q.slot q.front) MAX_PATH_LENGTH) ∧
      q'.WF ∧ q.contents = q.slot q.front :: q'.contents ∧
      q'.active_processes = q.active_processes := by
  have hne : q.count ≠ 0 := by omega
  refine ⟨{ q with waiting_threads := q.waiting_threads - 1
                   front := (q.front + 1).tmod q.capacity
                   count := q.count - 1 }, ?_, ?_⟩
  · simp only [queue_pop_leave, beq_iff_eq, hne, if_false]
    rfl
  · have hpf := pop_fields q
      { q with waiting_threads := q.waiting_threads - 1
               front := (q.front + 1).tmod q.capacity
               count := q.count - 1 } h hc rfl rfl rfl rfl rfl
    exact ⟨hpf.1, hpf.2, rfl⟩

theorem WF_with_waiting (q : WorkQueue) (n : Int) (h : q.WF) :
    ({ q with waiting_threads := n } : WorkQueue).WF :=
  ⟨h.cap_pos, h.len, h.front_lo, h.front_hi, h.count_lo, h.count_hi, h.rear_lo, h.rear_hi,
    h.rear_eq⟩

theorem queue_pop_nonempty (running : Bool) (q : WorkQueue) (buf : CString) (h : q.WF)
    (hc : 0 < q.count) :
    ∃ q', queue_pop running q buf = some (q', 1, strncpy (q.slot q.front) MAX_PATH_LENGTH) ∧
      q'.WF ∧ q.contents = q.slot q.front :: q'.contents ∧ q'.count = q.count - 1 ∧
      q'.capacity = q.capacity ∧ q'.waiting_threads = q.waiting_threads ∧
      q'.active_processes = q.active_processes ∧ q'.paths = q.paths := by
  have hne : q.count ≠ 0 := by omega
  have hpf := pop_fields q
    { q with front := (q.front + 1).tmod q.capacity, count := q.count - 1 } h hc rfl rfl rfl
    rfl rfl
  refine ⟨{ q with front := (q.front + 1).tmod q.capacity, count := q.count - 1 }, ?_,
    hpf.1, hpf.2, rfl, rfl, rfl, rfl, rfl⟩
  simp [queue_pop, queue_pop_enter, queue_pop_must_wait, queue_pop_leave, hne]

theorem queue_init_WF (c : Int) (hc : 1 ≤ c) : (queue_init c).WF := by
  refine ⟨hc, ?_, ?_, ?_, ?_, ?_, ?_, ?_, ?_⟩
  · show ((List.replicate c.toNat ([] : CString)).length : Int) = c
    simp
    omega
  · show (0 : Int) ≤ 0
    omega
  · show (0 : Int) < c
    omega
  · show (0 : Int) ≤ 0
    omega
  · show (0 : Int) ≤ c
    omega
  · show (-1 : Int) ≤ -1
    omega
  · show (-1 : Int) < c
    omega
  · show ((-1 : Int) + 1).tmod c = ((0 : Int) + 0).tmod c
    simp

theorem queue_init_contents (c : Int) : (queue_init c).contents = [] := by
  simp [WorkQueue.contents, queue_init]

theorem length_contents (q : WorkQueue) : q.contents.length = q.count.toNat := by
  simp [WorkQueue.contents]

theorem push_all_spec (fuel : Nat) (hf : 1 ≤ fuel) (ps : List CString)
    (hp : ∀ p ∈ ps, p.length < MAX_PATH_LENGTH) :
    ∀ q : WorkQueue, q.WF → (∀ s ∈ q.contents, s.length ≤ MAX_PATH_LENGTH) →
      ∃ q1, push_all fuel q ps = some q1 ∧ q1.WF ∧ q1.contents = q.contents ++ ps := by
  induction ps with
  | nil =>
    intro q hq _
    exact ⟨q, rfl, hq, by simp⟩
  | cons p ps ih =>
    intro q hq hs
    obtain ⟨q', e, hq', hc, -⟩ := queue_push_running fuel q p hq hf
    have hplen : p.length < MAX_PATH_LENGTH := hp p (List.mem_cons_self _ _)
    have hc' : q'.contents = q.contents ++ [p] := by
      rw [hc, strncpy_of_le (by omega)]
      congr 1
      conv_rhs => rw [← List.map_id q.contents]
      apply List.map_congr_left
      intro s hsm
      split
      · exact strncpy_of_le (hs s hsm)
      · rfl
    have hs' : ∀ s ∈ q'.contents, s.length ≤ MAX_PATH_LENGTH := by
      intro s hsm
      rw [hc'] at hsm
      rcases List.mem_append.mp hsm with h1 | h1
      · exact hs s h1
      · have : s = p := by simpa using h1
        rw [this]
        omega
    obtain ⟨q1, e1, hq1, hc1⟩ := ih (fun x hx => hp x (List.mem_cons_of_mem _ hx)) q' hq' hs'
    refine ⟨q1, ?_, hq1, ?_⟩
    · simp [push_all, e, e1]
    · rw [hc1, hc']
      simp

theorem pop_n_spec (running : Bool) (l : List CString) :
    ∀ q : WorkQueue, q.WF → q.contents = l → (∀ s ∈ l, s.length ≤ MAX_PATH_LENGTH) →
      ∃ q2, pop_n running l.length q = some (q2, l.map (fun p => ((1 : Int), p))) ∧
        q2.WF ∧ q2.count = 0 := by
  induction l with
  | nil =>
    intro q hq hc _
    have := length_contents q
    rw [hc] at this
    have h0 := hq.count_lo
    exact ⟨q, rfl, hq, by simp at this; omega⟩
  | cons x xs ih =>
    intro q hq hc hs
    have hlen := length_contents q
    rw [hc] at hlen
    have hpos : 0 < q.count := by
      simp at hlen
      omega
    obtain ⟨q', e, hq', hc', -⟩ := queue_pop_nonempty running q [] hq hpos
    rw [hc] at hc'
    have hx : q.slot q.front = x := (List.cons.inj hc').1.symm
    have hxs : q'.contents = xs := (List.cons.inj hc').2.symm
    obtain ⟨q2, e2, hq2, h0⟩ := ih q' hq' hxs (fun s hsm => hs s (List.mem_cons_of_mem _ hsm))
    refine ⟨q2, ?_, hq2, h0⟩
    have hxl : x.length ≤ MAX_PATH_LENGTH := hs x (List.mem_cons_self _ _)
    simp [pop_n, e, e2, hx, strncpy_of_le hxl]

theorem queue_push_grow_shutdown (fuel : Nat) (q : WorkQueue) :
    queue_push_grow fuel false q = some q := by
  cases fuel <;> simp [queue_push_grow]

theorem queue_push_shutdown_eq (fuel : Nat) (q : WorkQueue) (path : CString) :
    queue_push fuel false q path = some q := by
  simp [queue_push, queue_push_grow_shutdown]

theorem Call.apply_WF (fuel : Nat) (hf : 1 ≤ fuel) (call : Call) (q : WorkQueue) (h : q.WF) :
    ∃ q', call.apply fuel q = some q' ∧ q'.WF ∧
      (q'.capacity = q.capacity ∨
        (q'.capacity = 2 * q.capacity ∧ (call = Call.resize ∨ q.count = q.capacity))) := by
  cases call with
  | push running path =>
    cases running with
    | true =>
      obtain ⟨q', e, hq', -, -, hcap, -⟩ := queue_push_running fuel q path h hf
      refine ⟨q', e, hq', ?_⟩
      rcases hcap with h1 | ⟨h1, h2⟩
      · exact Or.inl h1
      · exact Or.inr ⟨h2, Or.inr h1⟩
    | false =>
      exact ⟨q, queue_push_shutdown_eq fuel q path, h, Or.inl rfl⟩
  | pop running =>
    by_cases hc : q.count = 0
    · cases running with
      | true =>
        refine ⟨queue_pop_enter q, ?_, ?_, Or.inl rfl⟩
        · simp [Call.apply, queue_pop, queue_pop_must_wait, queue_pop_enter, hc]
        · exact ⟨h.cap_pos, h.len, h.front_lo, h.front_hi, h.count_lo, h.count_hi, h.rear_lo,
            h.rear_hi, h.rear_eq⟩
      | false =>
        refine ⟨{ q with waiting_threads := q.waiting_threads + 1 - 1 }, ?_, ?_, Or.inl rfl⟩
        · simp [Call.apply, queue_pop, queue_pop_must_wait, queue_pop_enter, queue_pop_leave, hc]
        · exact ⟨h.cap_pos, h.len, h.front_lo, h.front_hi, h.count_lo, h.count_hi, h.rear_lo,
            h.rear_hi, h.rear_eq⟩
    · have hpos : 0 < q.count := by
        have := h.count_lo
        omega
      obtain ⟨q', e, hq', -, -, hcap, -⟩ := queue_pop_nonempty running q [] h hpos
      refine ⟨q', ?_, hq', Or.inl hcap⟩
      simp [Call.apply, e]
  | resize =>
    refine ⟨queue_resize q, rfl, queue_resize_WF q h, Or.inr ⟨?_, Or.inl rfl⟩⟩
    show q.capacity * 2 = 2 * q.capacity
    omega

theorem run_calls_WF (fuel : Nat) (hf : 1 ≤ fuel) (calls : List Call) :
    ∀ q : WorkQueue, q.WF →
      ∃ q', run_calls fuel calls q = some q' ∧ q'.WF ∧ ∃ k : Nat, q'.capacity = 2 ^ k * q.capacity := by
  induction calls with
  | nil =>
    intro q hq
    exact ⟨q, rfl, hq, 0, by simp⟩
  | cons c cs ih =>
    intro q hq
    obtain ⟨q1, e1, hq1, hcap⟩ := Call.apply_WF fuel hf c q hq
    obtain ⟨q2, e2, hq2, k, hk⟩ := ih q1 hq1
    refine ⟨q2, by simp [run_calls, e1, e2], hq2, ?_⟩
    rcases hcap with h1 | ⟨h1, -⟩
    · exact ⟨k, by rw [hk, h1]⟩
    · exact ⟨k + 1, by rw [hk, h1, pow_succ]; ring⟩

theorem run_calls_append (fuel : Nat) (xs ys : List Call) (q : WorkQueue) :
    run_calls fuel (xs ++ ys) q = (run_calls fuel xs q).bind (run_calls fuel ys) := by
  induction xs generalizing q with
  | nil => rfl
  | cons c cs ih =>
    simp only [List.cons_append, run_calls]
    cases c.apply fuel q with
    | none => rfl
    | some q1 => exact ih q1

/-! ## The worker pool -/

theorem queue_push_grow_fields (fuel : Nat) (running : Bool) (q g : WorkQueue)
    (h : queue_push_grow fuel running q = some g) :
    g.active_processes = q.active_processes ∧ g.waiting_threads = q.waiting_threads := by
  induction fuel generalizing q with
  | zero =>
    rw [queue_push_grow] at h
    split at h
    · simp at h
    · simp only [Option.some.injEq] at h
      subst h
      exact ⟨rfl, rfl⟩
  | succ n ih =>
    rw [queue_push_grow] at h
    split at h
    · exact ih (queue_resize q) h
    · simp only [Option.some.injEq] at h
      subst h
      exact ⟨rfl, rfl⟩

theorem queue_push_active (fuel : Nat) (running : Bool) (q q' : WorkQueue) (path : CString)
    (h : queue_push fuel running q path = some q') :
    q'.active_processes = q.active_processes := by
  unfold queue_push at h
  cases hg : queue_push_grow fuel running q with
  | none => simp [hg] at h
  | some g =>
    have hf := (queue_push_grow_fields fuel running q g hg).1
    simp only [hg] at h
    split at h
    · simp only [Option.some.injEq] at h
      subst h
      exact hf
    · simp only [Option.some.injEq] at h
      subst h
      exact hf

theorem queue_pop_leave_active (q : WorkQueue) (path : CString) :
    (queue_pop_leave q path).1.active_processes = q.active_processes := by
  unfold queue_pop_leave
  simp only
  split <;> rfl

theorem countP_set_of_getElem? {α : Type} (p : α → Bool) (l : List α) (i : Nat) (a b : α)
    (h : l[i]? = some a) :
    ((l.set i b).countP p : Int) + (if p a then 1 else 0) =
      (l.countP p : Int) + (if p b then 1 else 0) := by
  induction l generalizing i with
  | nil => simp at h
  | cons x xs ih =>
    cases i with
    | zero =>
      simp only [List.getElem?_cons_zero, Option.some.injEq] at h
      subst h
      simp only [List.set_cons_zero, List.countP_cons]
      split <;> split <;> push_cast <;> omega
    | succ j =>
      simp only [List.getElem?_cons_succ] at h
      have := ih j h
      simp only [List.set_cons_succ, List.countP_cons]
      push_cast
      omega

theorem worker_thread_accounting (fuel : Nat) (fs : FileSystem) (s s1 : State) (w w1 : Worker)
    (h : worker_thread fuel fs s w = some (s1, w1)) :
    s1.workers = s.workers ∧
      s1.work_queue.active_processes + (if w.counted then 1 else 0) =
        s.work_queue.active_processes + (if w1.counted then 1 else 0) := by
  obtain ⟨loc, path, stats⟩ := w
  cases loc with
  | loop_top =>
    simp only [worker_thread] at h
    split at h <;>
    · simp only [Option.some.injEq, Prod.mk.injEq] at h
      obtain ⟨rfl, rfl⟩ := h
      simp [Worker.counted, queue_pop_enter]
  | in_pop =>
    simp only [worker_thread] at h
    split at h
    · simp at h
    · have ha := queue_pop_leave_active s.work_queue path
      rcases hq : queue_pop_leave s.work_queue path with ⟨q, ret, p⟩
      rw [hq] at ha
      simp only [hq] at h
      split at h <;>
      · simp only [Option.some.injEq, Prod.mk.injEq] at h
        obtain ⟨rfl, rfl⟩ := h
        simpa [Worker.counted] using ha
  | popped =>
    simp only [worker_thread, Option.some.injEq, Prod.mk.injEq] at h
    obtain ⟨rfl, rfl⟩ := h
    simp [Worker.counted, atomic_fetch_add]
  | opening =>
    simp only [worker_thread] at h
    split at h <;>
    · simp only [Option.some.injEq, Prod.mk.injEq] at h
      obtain ⟨rfl, rfl⟩ := h
      simp [Worker.counted, atomic_fetch_add]
  | reading entries =>
    cases entries with
    | nil =>
      simp only [worker_thread, Option.some.injEq, Prod.mk.injEq] at h
      obtain ⟨rfl, rfl⟩ := h
      simp [Worker.counted]
    | cons d rest =>
      simp only [worker_thread] at h
      split at h
      · simp only [Option.some.injEq, Prod.mk.injEq] at h
        obtain ⟨rfl, rfl⟩ := h
        simp [Worker.counted]
      · split at h
        · simp only [Option.some.injEq, Prod.mk.injEq] at h
          obtain ⟨rfl, rfl⟩ := h
          simp [Worker.counted]
        · split at h
          · simp only [Option.some.injEq, Prod.mk.injEq] at h
            obtain ⟨rfl, rfl⟩ := h
            simp [Worker.counted]
          · split at h
            · simp only [Option.some.injEq, Prod.mk.injEq] at h
              obtain ⟨rfl, rfl⟩ := h
              simp [Worker.counted]
            · split at h <;>
              · simp only [Option.some.injEq, Prod.mk.injEq] at h
                obtain ⟨rfl, rfl⟩ := h
                simp [Worker.counted, process_file]
  | pushing rest full_path =>
    simp only [worker_thread] at h
    cases hq : queue_push fuel s.running s.work_queue full_path with
    | none => simp [hq] at h
    | some q =>
      have ha := queue_push_active fuel s.running s.work_queue q full_path hq
      simp only [hq, Option.some.injEq, Prod.mk.injEq] at h
      obtain ⟨rfl, rfl⟩ := h
      simpa [Worker.counted] using ha
  | closing =>
    simp only [worker_thread, Option.some.injEq, Prod.mk.injEq] at h
    obtain ⟨rfl, rfl⟩ := h
    simp [Worker.counted, atomic_fetch_add]
  | checking =>
    simp only [worker_thread, Option.some.injEq, Prod.mk.injEq] at h
    obtain ⟨rfl, rfl⟩ := h
    simp only [check_termination_condition, handle_signal, Worker.counted]
    split <;> simp
  | exited => simp [worker_thread] at h

theorem step_accounting (fuel : Nat) (fs : FileSystem) (i : Nat) (s s' : State)
    (h : step fuel fs i s = some s')
    (hinv : s.work_queue.active_processes = (s.workers.countP Worker.counted : Int)) :
    s'.work_queue.active_processes = (s'.workers.countP Worker.counted : Int) := by
  unfold step at h
  cases hw : s.workers[i]? with
  | none => simp [hw] at h
  | some w =>
    simp only [hw] at h
    cases hs : worker_thread fuel fs s w with
    | none => simp [hs] at h
    | some r =>
      obtain ⟨s1, w1⟩ := r
      simp only [hs, Option.some.injEq] at h
      subst h
      obtain ⟨e1, e2⟩ := worker_thread_accounting fuel fs s s1 w w1 hs
      have := countP_set_of_getElem? Worker.counted s.workers i w w1 hw
      simp only [e1]
      omega

theorem main_eq (root : CString) (n : Nat) :
    ∃ q, main root n = some
      { work_queue := q
        running := true
        workers := List.replicate n { loc := .loop_top, path := [], stats := ⟨0, 0⟩ }
        process_file_calls := [] } ∧ q.WF ∧ q.active_processes = 0 ∧
      q.contents = [strncpy root (MAX_PATH_LENGTH - 1)] := by
  have hwf := queue_init_WF 100 (by decide)
  have hg : queue_push_grow 0 true (queue_init 100) = some (queue_init 100) := by
    simp [queue_push_grow, queue_init]
  obtain ⟨q', e, hq', hc, -, -, -, ha⟩ := queue_push_running 1 (queue_init 100) root hwf le_rfl
  have e0 : queue_push 0 true (queue_init 100) root = some q' := by
    have hg1 : queue_push_grow 1 true (queue_init 100) = some (queue_init 100) := by
      simp [queue_push_grow, queue_init]
    simp only [queue_push, hg1] at e
    simp only [queue_push, hg]
    exact e
  refine ⟨q', by simp [main, e0], hq', ?_, ?_⟩
  · rw [ha]
    rfl
  · rw [hc, queue_init_contents]
    rfl

theorem reachable_of_run_events (fuel : Nat) (fs : FileSystem) (s0 : State) (es : List Event) :
    ∀ s s', Reachable fuel fs s0 s → run_events fuel fs es s = some s' →
      Reachable fuel fs s0 s' := by
  induction es with
  | nil =>
    intro s s' hr h
    simp only [run_events, Option.some.injEq] at h
    subst h
    exact hr
  | cons e es ih =>
    intro s s' hr h
    simp only [run_events] at h
    cases he : e.apply fuel fs s with
    | none => simp [he] at h
    | some s1 =>
      simp only [he] at h
      exact ih s1 s' (Reachable.next s s1 e hr he) h

theorem step_none_of_all_waiting (fuel : Nat) (fs : FileSystem) (s : State)
    (hw : ∀ w ∈ s.workers, w.loc = Loc.in_pop)
    (hq : queue_pop_must_wait s.running s.work_queue = true) (i : Nat) :
    step fuel fs i s = none := by
  unfold step
  cases h : s.workers[i]? with
  | none => rfl
  | some w =>
    have hm : w ∈ s.workers := List.getElem?_mem h
    have hl := hw w hm
    simp [worker_thread, hl, hq]

theorem step_of_worker_thread (fuel : Nat) (fs : FileSystem) (i : Nat) (s s1 : State)
    (w w1 : Worker) (hw : s.workers[i]? = some w)
    (h : worker_thread fuel fs s w = some (s1, w1)) :
    step fuel fs i s = some { s1 with workers := s1.workers.set i w1 } := by
  unfold step
  rw [hw]
  simp only [h]

theorem getElem?_set_of_getElem? {α : Type} (l : List α) (i : Nat) (a b : α)
    (h : l[i]? = some a) : (l.set i b)[i]? = some b := by
  obtain ⟨hlt, -⟩ := List.getElem?_eq_some.mp h
  exact List.getElem?_set_self hlt

theorem leave_after_shutdown (fuel : Nat) (fs : FileSystem) (s : State) (i : Nat) (w : Worker)
    (hw : s.workers[i]? = some w) (hl : w.loc = Loc.closing) (hr : s.running = false) :
    run_events fuel fs (steps_of i 3) s =
      some { s with
        work_queue := { s.work_queue with
          active_processes := s.work_queue.active_processes + -1 }
        workers := s.workers.set i { w with loc := Loc.exited } } := by
  obtain ⟨loc, path, stats⟩ := w
  simp only at hl
  subst hl
  obtain ⟨q, r, ws, calls⟩ := s
  simp only at hr hw
  subst hr
  have h1 : step fuel fs i ⟨q, false, ws, calls⟩ =
      some ⟨{ q with active_processes := q.active_processes + -1 }, false,
        ws.set i ⟨Loc.checking, path, stats⟩, calls⟩ := by
    rw [step_of_worker_thread fuel fs i _ _ _ _ hw (by simp [worker_thread]; exact ⟨rfl, rfl⟩)]
    rfl
  have hw2 := getElem?_set_of_getElem? ws i _ ⟨Loc.checking, path, stats⟩ hw
  have h2 : step fuel fs i ⟨{ q with active_processes := q.active_processes + -1 }, false,
        ws.set i ⟨Loc.checking, path, stats⟩, calls⟩ =
      some ⟨{ q with active_processes := q.active_processes + -1 }, false,
        ws.set i ⟨Loc.loop_top, path, stats⟩, calls⟩ := by
    rw [step_of_worker_thread fuel fs i _
      ⟨{ q with active_processes := q.active_processes + -1 }, false,
        ws.set i ⟨Loc.checking, path, stats⟩, calls⟩ _ ⟨Loc.loop_top, path, stats⟩ hw2 ?_]
    · simp [List.set_set]
    · simp only [worker_thread, check_termination_condition, handle_signal]
      split <;> rfl
  have hw3 := getElem?_set_of_getElem? ws i _ ⟨Loc.loop_top, path, stats⟩ hw
  have h3 : step fuel fs i ⟨{ q with active_processes := q.active_processes + -1 }, false,
        ws.set i ⟨Loc.loop_top, path, stats⟩, calls⟩ =
      some ⟨{ q with active_processes := q.active_processes + -1 }, false,
        ws.set i ⟨Loc.exited, path, stats⟩, calls⟩ := by
    rw [step_of_worker_thread fuel fs i _
      ⟨{ q with active_processes := q.active_processes + -1 }, false,
        ws.set i ⟨Loc.loop_top, path, stats⟩, calls⟩ _ ⟨Loc.exited, path, stats⟩ hw3
      (by simp [worker_thread])]
    simp [List.set_set]
  simp only [steps_of, List.replicate, run_events, Event.apply, h1, h2, h3]

theorem run_events_worker_cons (fuel : Nat) (fs : FileSystem) (i : Nat) (es : List Event)
    (s s1 : State) (h : step fuel fs i s = some s1) :
    run_events fuel fs (Event.worker i :: es) s = run_events fuel fs es s1 := by
  simp only [run_events, Event.apply, h]

/-! ## A single worker traverses the whole tree -/

theorem run_solo_add (fuel : Nat) (fs : FileSystem) (n m : Nat) (s s1 s2 : State)
    (h1 : run_solo fuel fs n s = some s1) (h2 : run_solo fuel fs m s1 = some s2) :
    run_solo fuel fs (n + m) s = some s2 := by
  induction n generalizing s with
  | zero =>
    simp only [run_solo, Option.some.injEq] at h1
    subst h1
    simpa using h2
  | succ k ih =>
    simp only [run_solo] at h1
    cases hs : step fuel fs 0 s with
    | none => simp [hs] at h1
    | some s' =>
      simp only [hs] at h1
      have := ih s' h1
      have e : k + 1 + m = (k + m) + 1 := by omega
      rw [e]
      simp only [run_solo, hs]
      exact this

theorem step_solo (fuel : Nat) (fs : FileSystem) (q q1 : WorkQueue) (r r1 : Bool)
    (w w1 : Worker) (calls calls1 : List CString)
    (h : worker_thread fuel fs (solo q r w calls) w = some (solo q1 r1 w calls1, w1)) :
    step fuel fs 0 (solo q r w calls) = some (solo q1 r1 w1 calls1) := by
  have e : (solo q r w calls).workers[0]? = some w := rfl
  unfold step
  rw [e]
  simp only [h]
  rfl

theorem run_solo_step (fuel : Nat) (fs : FileSystem) (n : Nat) (q q1 : WorkQueue)
    (r r1 : Bool) (w w1 : Worker) (calls calls1 : List CString) (s2 : State)
    (h : worker_thread fuel fs (solo q r w calls) w = some (solo q1 r1 w calls1, w1))
    (h2 : run_solo fuel fs n (solo q1 r1 w1 calls1) = some s2) :
    run_solo fuel fs (1 + n) (solo q r w calls) = some s2 := by
  have e : 1 + n = n + 1 := by omega
  rw [e]
  simp only [run_solo, step_solo fuel fs q q1 r r1 w w1 calls calls1 h]
  exact h2

theorem names_eq_nil {l : Listing} (h : l.names = []) : l = Listing.nil := by
  cases l <;> simp [Listing.names] at h ⊢

theorem not_dot_iff (d : CString) : not_dot d = true ↔ ¬ (d = ['.'] ∨ d = ['.', '.']) := by
  simp [not_dot]

theorem enumerate_directory (fuel : Nat) (hf : 1 ≤ fuel) (fs : FileSystem) (p : CString)
    (raw : List CString) :
    ∀ (l : Listing) (q : WorkQueue) (st : ThreadStats) (calls : List CString),
      raw.filter not_dot = l.names → fs.hosts_entries p l = true →
      (∀ x ∈ l.entry_paths p, x.length < MAX_PATH_LENGTH) →
      q.WF → (∀ x ∈ q.contents, x.length ≤ MAX_PATH_LENGTH) →
      ∃ n q' st',
        run_solo fuel fs n (solo q true ⟨Loc.reading raw, p, st⟩ calls) =
          some (solo q' true ⟨Loc.closing, p, st'⟩ (calls ++ l.entry_paths p)) ∧
        q'.WF ∧ q'.contents = q.contents ++ (l.subdirs p).map Prod.fst ∧
        q'.active_processes = q.active_processes := by
  induction raw with
  | nil =>
    intro l q st calls hraw _ _ hq _
    have hl : l = Listing.nil := names_eq_nil (by simpa using hraw.symm)
    subst hl
    refine ⟨1 + 0, q, st, ?_, hq, by simp [Listing.subdirs], rfl⟩
    refine run_solo_step fuel fs 0 q q true true _ ⟨Loc.closing, p, st⟩ calls calls _
      (by simp [worker_thread]) ?_
    simp [run_solo, Listing.entry_paths]
  | cons d rest ih =>
    intro l q st calls hraw hhost hlen hq hc
    by_cases hd : not_dot d = true
    · -- a real entry: the head of the listing
      have hdd : ¬ (d = ['.'] ∨ d = ['.', '.']) := (not_dot_iff d).mp hd
      rw [List.filter_cons_of_pos hd] at hraw
      cases l with
      | nil => simp [Listing.names] at hraw
      | file name l' =>
        simp only [Listing.names, List.cons.injEq] at hraw
        obtain ⟨rfl, hraw'⟩ := hraw
        simp only [FileSystem.hosts_entries, Bool.and_eq_true, decide_eq_true_eq] at hhost
        obtain ⟨hstat, hhost'⟩ := hhost
        have hjl : ¬ MAX_PATH_LENGTH ≤ (join_path p d).length := by
          have := hlen (join_path p d) (by simp [Listing.entry_paths])
          omega
        obtain ⟨n, q', st', hrun, hq', hc', ha'⟩ := ih l' q
          { st with files_processed := st.files_processed + 1 } (calls ++ [join_path p d])
          hraw' hhost' (fun x hx => hlen x (by simp [Listing.entry_paths, hx])) hq hc
        refine ⟨1 + n, q', st', ?_, hq', ?_, ha'⟩
        · refine run_solo_step fuel fs n q q true true _
            ⟨Loc.reading rest, p, { st with files_processed := st.files_processed + 1 }⟩
            calls (calls ++ [join_path p d]) _
            (by simp [worker_thread, solo, process_file, hdd, hjl, hstat]) ?_
          rw [hrun]
          simp [Listing.entry_paths]
        · rw [hc']
          simp [Listing.subdirs]
      | dir name readable children l' =>
        simp only [Listing.names, List.cons.injEq] at hraw
        obtain ⟨rfl, hraw'⟩ := hraw
        simp only [FileSystem.hosts_entries, Bool.and_eq_true, decide_eq_true_eq] at hhost
        obtain ⟨⟨⟨hstat, -⟩, -⟩, hhost'⟩ := hhost
        have hjlt : (join_path p d).length < MAX_PATH_LENGTH :=
          hlen (join_path p d) (by simp [Listing.entry_paths])
        have hjl : ¬ MAX_PATH_LENGTH ≤ (join_path p d).length := by omega
        obtain ⟨q1, hpush, hq1, hc1, -, -, -, ha1⟩ :=
          queue_push_running fuel q (join_path p d) hq hf
        have hc1' : q1.contents = q.contents ++ [join_path p d] := by
          rw [hc1, strncpy_of_le (by omega)]
          congr 1
          conv_rhs => rw [← List.map_id q.contents]
          apply List.map_congr_left
          intro s hsm
          split
          · exact strncpy_of_le (hc s hsm)
          · rfl
        have hcs1 : ∀ x ∈ q1.contents, x.length ≤ MAX_PATH_LENGTH := by
          intro x hx
          rw [hc1'] at hx
          rcases List.mem_append.mp hx with h1 | h1
          · exact hc x h1
          · have : x = join_path p d := by simpa using h1
            rw [this]
            omega
        obtain ⟨n, q', st', hrun, hq', hc', ha'⟩ := ih l' q1
          { st with dirs_processed := st.dirs_processed + 1 } (calls ++ [join_path p d])
          hraw' hhost' (fun x hx => hlen x (by simp [Listing.entry_paths, hx])) hq1 hcs1
        refine ⟨1 + (1 + n), q', st', ?_, hq', ?_, by rw [ha', ha1]⟩
        · refine run_solo_step fuel fs (1 + n) q q true true _
            ⟨Loc.pushing rest (join_path p d), p,
              { st with dirs_processed := st.dirs_processed + 1 }⟩
            calls (calls ++ [join_path p d]) _
            (by simp [worker_thread, solo, process_file, hdd, hjl, hstat]) ?_
          refine run_solo_step fuel fs n q q1 true true _
            ⟨Loc.reading rest, p, { st with dirs_processed := st.dirs_processed + 1 }⟩
            (calls ++ [join_path p d]) (calls ++ [join_path p d]) _
            (by simp [worker_thread, solo, hpush]) ?_
          rw [hrun]
          simp [Listing.entry_paths]
        · rw [hc', hc1']
          simp [Listing.subdirs]
    · -- `.` or `..`
      have hdd : d = ['.'] ∨ d = ['.', '.'] := by
        by_contra hcon
        exact hd ((not_dot_iff d).mpr hcon)
      rw [List.filter_cons_of_neg hd] at hraw
      obtain ⟨n, q', st', hrun, hq', hc', ha'⟩ := ih l q st calls hraw hhost hlen hq hc
      refine ⟨1 + n, q', st', ?_, hq', hc', ha'⟩
      exact run_solo_step fuel fs n q q true true _ ⟨Loc.reading rest, p, st⟩ calls calls _
        (by simp [worker_thread, solo, hdd]) hrun

theorem WF_with_active (q : WorkQueue) (a : Int) (h : q.WF) :
    ({ q with active_processes := a } : WorkQueue).WF :=
  ⟨h.cap_pos, h.len, h.front_lo, h.front_hi, h.count_lo, h.count_hi, h.rear_lo, h.rear_hi,
    h.rear_eq⟩

theorem queue_pop_leave_nonempty (q : WorkQueue) (buf : CString) (h : q.WF)
    (hc : 0 < q.count) :
    ∃ q', queue_pop_leave (queue_pop_enter q) buf =
        (q', 1, strncpy (q.slot q.front) MAX_PATH_LENGTH) ∧
      q'.WF ∧ q.contents = q.slot q.front :: q'.contents ∧
      q'.active_processes = q.active_processes :=
  queue_pop_leave_spec (queue_pop_enter q) buf (WF_with_waiting q _ h) hc

theorem traverse_directory (fuel : Nat) (hf : 1 ≤ fuel) (fs : FileSystem) (p : CString)
    (l : Listing) (c : List CString) (q : WorkQueue) (path0 : CString) (st0 : ThreadStats)
    (calls : List CString) (hq : q.WF) (hc : q.contents = p :: c)
    (hcs : ∀ x ∈ q.contents, x.length ≤ MAX_PATH_LENGTH) (ha : q.active_processes = 0)
    (hopen : opens_as fs p true l = true) (hhost : fs.hosts_entries p l = true)
    (hlen : ∀ x ∈ l.entry_paths p, x.length < MAX_PATH_LENGTH) :
    ∃ n q' st',
      run_solo fuel fs n (solo q true ⟨Loc.loop_top, path0, st0⟩ calls) =
        some (solo q' (decide (q'.count ≠ 0)) ⟨Loc.loop_top, p, st'⟩
          (calls ++ l.entry_paths p)) ∧
      q'.WF ∧ q'.contents = c ++ (l.subdirs p).map Prod.fst ∧ q'.active_processes = 0 := by
  -- the pop
  have hcount : 0 < q.count := by
    have := length_contents q
    rw [hc] at this
    simp at this
    omega
  obtain ⟨q1, hleave, hq1, hcont1, ha1⟩ := queue_pop_leave_nonempty q path0 hq hcount
  rw [hc] at hcont1
  have hfront : q.slot q.front = p := (List.cons.inj hcont1).1.symm
  have hc1 : q1.contents = c := (List.cons.inj hcont1).2.symm
  have hplen : p.length ≤ MAX_PATH_LENGTH := hcs p (by rw [hc]; exact List.mem_cons_self _ _)
  rw [hfront, strncpy_of_le hplen] at hleave
  have hwait : queue_pop_must_wait true (queue_pop_enter q) = false := by
    have hne : q.count ≠ 0 := by omega
    simp [queue_pop_must_wait, queue_pop_enter, hne]
  -- the directory stream
  obtain ⟨raw, hraw, hfilter⟩ : ∃ raw, fs.opendir p = some raw ∧
      raw.filter not_dot = l.names := by
    unfold opens_as at hopen
    cases ho : fs.opendir p with
    | none => simp [ho] at hopen
    | some raw =>
      simp only [ho, Bool.true_and, decide_eq_true_eq] at hopen
      exact ⟨raw, rfl, hopen⟩
  have hq2 : ({ q1 with active_processes := q1.active_processes + 1 } : WorkQueue).WF :=
    WF_with_active q1 _ hq1
  have hcs2 : ∀ x ∈ ({ q1 with active_processes := q1.active_processes + 1 } :
      WorkQueue).contents, x.length ≤ MAX_PATH_LENGTH := by
    intro x hx
    have hx' : x ∈ q1.contents := hx
    rw [hc1] at hx'
    exact hcs x (by rw [hc]; exact List.mem_cons_of_mem _ hx')
  obtain ⟨n, q3, st3, hrun, hq3, hc3, ha3⟩ := enumerate_directory fuel hf fs p raw l
    { q1 with active_processes := q1.active_processes + 1 } st0 calls hfilter hhost hlen
    hq2 hcs2
  have ha3' : q3.active_processes = 1 := by
    rw [ha3]
    show q1.active_processes + 1 = 1
    omega
  have hc3' : q3.contents = c ++ (l.subdirs p).map Prod.fst := by
    rw [hc3]
    show q1.contents ++ _ = _
    rw [hc1]
  refine ⟨1 + (1 + (1 + (1 + (n + (1 + (1 + 0)))))),
    { q3 with active_processes := q3.active_processes + -1 }, st3, ?_,
    WF_with_active q3 _ hq3, hc3', ?_⟩
  · refine run_solo_step fuel fs _ q (queue_pop_enter q) true true _
      ⟨Loc.in_pop, path0, st0⟩ calls calls _ (by simp [worker_thread, solo]) ?_
    refine run_solo_step fuel fs _ (queue_pop_enter q) q1 true true _
      ⟨Loc.popped, p, st0⟩ calls calls _ (by simp [worker_thread, solo, hwait, hleave]) ?_
    refine run_solo_step fuel fs _ q1 { q1 with active_processes := q1.active_processes + 1 }
      true true _ ⟨Loc.opening, p, st0⟩ calls calls _
      (by simp [worker_thread, solo, atomic_fetch_add]) ?_
    refine run_solo_step fuel fs _ { q1 with active_processes := q1.active_processes + 1 }
      { q1 with active_processes := q1.active_processes + 1 }
      true true _ ⟨Loc.reading raw, p, st0⟩ calls calls _
      (by simp [worker_thread, solo, hraw]) ?_
    refine run_solo_add fuel fs n _ _ _ _ hrun ?_
    refine run_solo_step fuel fs _ q3 { q3 with active_processes := q3.active_processes + -1 }
      true true _ ⟨Loc.checking, p, st3⟩ (calls ++ l.entry_paths p)
      (calls ++ l.entry_paths p) _ (by simp [worker_thread, solo, atomic_fetch_add]) ?_
    refine run_solo_step fuel fs 0 { q3 with active_processes := q3.active_processes + -1 }
      { q3 with active_processes := q3.active_processes + -1 }
      true (decide (q3.count ≠ 0)) _ ⟨Loc.loop_top, p, st3⟩ (calls ++ l.entry_paths p)
      (calls ++ l.entry_paths p) _ ?_ rfl
    simp only [worker_thread, solo, check_termination_condition, handle_signal, ha3']
    by_cases h0 : q3.count = 0 <;> simp [h0]
  · show q3.active_processes + -1 = 0
    omega

theorem entry_paths_subset (p : CString) (l : Listing) :
    ∀ x ∈ l.entry_paths p, x ∈ l.paths p := by
  induction l with
  | nil => simp [Listing.entry_paths]
  | file name rest ih =>
    intro x hx
    simp only [Listing.entry_paths, List.mem_cons] at hx
    simp only [Listing.paths, List.mem_cons]
    rcases hx with h | h
    · exact Or.inl h
    · exact Or.inr (ih x h)
  | dir name readable children rest _ ih =>
    intro x hx
    simp only [Listing.entry_paths, List.mem_cons] at hx
    simp only [Listing.paths, List.mem_cons, List.mem_append]
    rcases hx with h | h
    · exact Or.inl h
    · exact Or.inr (Or.inr (ih x h))

theorem paths_perm (p : CString) (l : Listing) :
    (l.paths p).Perm (l.entry_paths p ++ pending_paths (l.subdirs p)) := by
  induction l generalizing p with
  | nil => simp [Listing.paths, Listing.entry_paths, Listing.subdirs, pending_paths]
  | file name rest ih =>
    simp only [Listing.paths, Listing.entry_paths, Listing.subdirs, List.cons_append]
    exact List.Perm.cons _ (ih p)
  | dir name readable children rest _ ih =>
    simp only [Listing.paths, Listing.entry_paths, Listing.subdirs, pending_paths,
      List.cons_append]
    refine List.Perm.cons _ ?_
    exact (List.Perm.append_left _ (ih p)).trans (List.perm_append_comm_assoc _ _ _)

theorem pending_paths_append (a b : List (CString × Listing)) :
    pending_paths (a ++ b) = pending_paths a ++ pending_paths b := by
  induction a with
  | nil => rfl
  | cons x xs ih => simp [pending_paths, ih]

theorem pending_size_append (a b : List (CString × Listing)) :
    pending_size (a ++ b) = pending_size a + pending_size b := by
  induction a with
  | nil => simp [pending_size]
  | cons x xs ih =>
    show pending_size (x :: (xs ++ b)) = pending_size (x :: xs) + pending_size b
    simp only [pending_size]
    rw [ih]
    omega

theorem pending_size_subdirs (p : CString) (l : Listing) :
    pending_size (l.subdirs p) ≤ l.size := by
  induction l with
  | nil => simp [Listing.subdirs, pending_size]
  | file name rest ih =>
    simp only [Listing.subdirs, Listing.size]
    omega
  | dir name readable children rest _ ih =>
    simp only [Listing.subdirs, Listing.size, pending_size]
    omega

theorem traversable_subdirs (fs : FileSystem) (p : CString) (l : Listing)
    (hhost : fs.hosts_entries p l = true) (hread : l.all_readable = true)
    (hlen : ∀ x ∈ l.paths p, x.length < MAX_PATH_LENGTH) :
    ∀ pl ∈ l.subdirs p, traversable fs pl := by
  induction l with
  | nil => simp [Listing.subdirs]
  | file name rest ih =>
    simp only [FileSystem.hosts_entries, Bool.and_eq_true] at hhost
    simp only [Listing.all_readable] at hread
    intro pl hpl
    simp only [Listing.subdirs] at hpl
    exact ih hhost.2 hread (fun x hx => hlen x (by simp [Listing.paths, hx])) pl hpl
  | dir name readable children rest _ ih =>
    simp only [FileSystem.hosts_entries, Bool.and_eq_true] at hhost
    simp only [Listing.all_readable, Bool.and_eq_true] at hread
    obtain ⟨⟨⟨-, hopen⟩, hch⟩, hrest⟩ := hhost
    obtain ⟨⟨hr, hcr⟩, hrr⟩ := hread
    subst hr
    intro pl hpl
    simp only [Listing.subdirs, List.mem_cons] at hpl
    rcases hpl with rfl | hpl
    · refine ⟨hlen _ (by simp [Listing.paths]), hopen, hch, hcr, ?_⟩
      intro x hx
      exact hlen x (by simp [Listing.paths, hx])
    · exact ih hrest hrr (fun x hx => hlen x (by simp [Listing.paths, hx])) pl hpl

theorem traverse_all (fuel : Nat) (hf : 1 ≤ fuel) (fs : FileSystem) :
    ∀ (N : Nat) (pending : List (CString × Listing)) (q : WorkQueue) (path0 : CString)
      (st0 : ThreadStats) (calls : List CString),
      pending_size pending ≤ N → pending ≠ [] → (∀ pl ∈ pending, traversable fs pl) →
      q.WF → q.contents = pending.map Prod.fst → q.active_processes = 0 →
      ∃ n q' w' calls',
        run_solo fuel fs n (solo q true ⟨Loc.loop_top, path0, st0⟩ calls) =
          some (solo q' false w' (calls ++ calls')) ∧
        w'.loc = Loc.exited ∧ calls'.Perm (pending_paths pending) ∧
        q'.count = 0 ∧ q'.active_processes = 0 := by
  intro N
  induction N with
  | zero =>
    intro pending q path0 st0 calls hsize hne
    cases pending with
    | nil => exact absurd rfl hne
    | cons pl rest =>
      simp only [pending_size] at hsize
      omega
  | succ N ih =>
    intro pending q path0 st0 calls hsize hne htrav hq hc ha
    cases pending with
    | nil => exact absurd rfl hne
    | cons pl rest =>
      obtain ⟨p, l⟩ := pl
      obtain ⟨hplen, hopen, hhost, hread, hlen⟩ := htrav (p, l) (List.mem_cons_self _ _)
      have hcs : ∀ x ∈ q.contents, x.length ≤ MAX_PATH_LENGTH := by
        intro x hx
        rw [hc] at hx
        obtain ⟨pl', hmem, rfl⟩ := List.mem_map.mp hx
        exact Nat.le_of_lt (htrav pl' hmem).1
      obtain ⟨n1, q1, st1, hrun1, hq1, hc1, ha1⟩ := traverse_directory fuel hf fs p l
        (rest.map Prod.fst) q path0 st0 calls hq (by simpa using hc) hcs ha hopen hhost
        (fun x hx => hlen x (entry_paths_subset p l x hx))
      have hc1' : q1.contents = (rest ++ l.subdirs p).map Prod.fst := by
        rw [hc1, List.map_append]
      have hlen1 := length_contents q1
      have hq1lo := hq1.count_lo
      by_cases h0 : q1.count = 0
      · -- nothing left: the check has requested shutdown
        have hnil : rest ++ l.subdirs p = [] := by
          rw [hc1', h0] at hlen1
          simpa using hlen1
        obtain ⟨hrest, hsub⟩ := List.append_eq_nil.mp hnil
        refine ⟨n1 + (1 + 0), q1, ⟨Loc.exited, p, st1⟩, l.entry_paths p, ?_, rfl, ?_, h0, ha1⟩
        · refine run_solo_add fuel fs n1 _ _ _ _ hrun1 ?_
          have hd : decide (q1.count ≠ 0) = false := by simp [h0]
          rw [hd]
          exact run_solo_step fuel fs 0 q1 q1 false false _ ⟨Loc.exited, p, st1⟩ _ _ _
            (by simp [worker_thread, solo]) rfl
        · have hp := paths_perm p l
          rw [hsub] at hp
          simp only [pending_paths, List.append_nil] at hp
          rw [hrest]
          simp only [pending_paths, List.append_nil]
          exact hp.symm
      · -- more directories are queued
        have hne1 : rest ++ l.subdirs p ≠ [] := by
          intro hnil
          rw [hc1', hnil] at hlen1
          simp at hlen1
          omega
        have hsize1 : pending_size (rest ++ l.subdirs p) ≤ N := by
          have := pending_size_subdirs p l
          rw [pending_size_append]
          simp only [pending_size] at hsize
          omega
        have htrav1 : ∀ pl ∈ rest ++ l.subdirs p, traversable fs pl := by
          intro pl hpl
          rcases List.mem_append.mp hpl with h | h
          · exact htrav pl (List.mem_cons_of_mem _ h)
          · exact traversable_subdirs fs p l hhost hread hlen pl h
        obtain ⟨n2, q2, w2, calls2, hrun2, hw2, hperm2, hcount2, ha2⟩ := ih
          (rest ++ l.subdirs p) q1 p st1 (calls ++ l.entry_paths p) hsize1 hne1 htrav1 hq1 hc1' ha1
        refine ⟨n1 + n2, q2, w2, l.entry_paths p ++ calls2, ?_, hw2, ?_, hcount2, ha2⟩
        · refine run_solo_add fuel fs n1 n2 _ _ _ hrun1 ?_
          have hd : decide (q1.count ≠ 0) = true := by simp [h0]
          rw [hd, hrun2, List.append_assoc]
        · simp only [pending_paths]
          rw [pending_paths_append] at hperm2
          have h1 : (l.entry_paths p ++ calls2).Perm
              (l.entry_paths p ++ (pending_paths rest ++ pending_paths (l.subdirs p))) :=
            List.Perm.append_left _ hperm2
          have h2 : (l.entry_paths p ++ (pending_paths rest ++ pending_paths (l.subdirs p))).Perm
              ((l.entry_paths p ++ pending_paths (l.subdirs p)) ++ pending_paths rest) := by
            rw [List.append_assoc]
            exact List.Perm.append_left _ List.perm_append_comm
          exact h1.trans (h2.trans (List.Perm.append_right _ (paths_perm p l).symm))

theorem length_paths (p : CString) (l : Listing) : (l.paths p).length = l.files + l.dirs := by
  induction l generalizing p with
  | nil => rfl
  | file name rest ih =>
    simp only [Listing.paths, List.length_cons, Listing.files, Listing.dirs, ih]
    omega
  | dir name readable children rest ihc ihr =>
    simp only [Listing.paths, List.length_cons, List.length_append, Listing.files,
      Listing.dirs, ihc, ihr]
    omega

/-! ## No entry is classified twice, whatever the interleaving -/

theorem queue_push_grow_fuel_succ (fuel : Nat) (running : Bool) :
    ∀ (q g : WorkQueue), queue_push_grow fuel running q = some g →
      queue_push_grow (fuel + 1) running q = some g := by
  induction fuel with
  | zero =>
    intro q g h
    rw [queue_push_grow] at h
    split at h
    · simp at h
    · rename_i hc
      rw [queue_push_grow, if_neg hc]
      exact h
  | succ n ih =>
    intro q g h
    rw [queue_push_grow] at h
    split at h
    · rename_i hc
      rw [queue_push_grow]
      rw [if_pos hc]
      exact ih _ _ h
    · rename_i hc
      rw [queue_push_grow, if_neg hc]
      exact h

theorem queue_push_fuel_succ (fuel : Nat) (running : Bool) (q q' : WorkQueue) (path : CString)
    (h : queue_push fuel running q path = some q') :
    queue_push (fuel + 1) running q path = some q' := by
  unfold queue_push at h ⊢
  cases hg : queue_push_grow fuel running q with
  | none => simp [hg] at h
  | some g =>
    rw [queue_push_grow_fuel_succ fuel running q g hg]
    simpa [hg] using h

theorem queue_push_running_any_fuel (fuel : Nat) (q q' : WorkQueue) (path : CString)
    (h : q.WF) (hs : ∀ x ∈ q.contents, x.length ≤ MAX_PATH_LENGTH)
    (hp : path.length < MAX_PATH_LENGTH) (e : queue_push fuel true q path = some q') :
    q'.WF ∧ q'.contents = q.contents ++ [path] := by
  have e1 : queue_push (fuel + 1) true q path = some q' := queue_push_fuel_succ _ _ _ _ _ e
  obtain ⟨q'', e2, hwf, hc, -⟩ := queue_push_running (fuel + 1) q path h (by omega)
  rw [e1] at e2
  simp only [Option.some.injEq] at e2
  subst e2
  refine ⟨hwf, ?_⟩
  rw [hc, strncpy_of_le (by omega)]
  congr 1
  conv_rhs => rw [← List.map_id q.contents]
  apply List.map_congr_left
  intro s hsm
  split
  · exact strncpy_of_le (hs s hsm)
  · rfl

theorem sum_map_set_of_getElem? {α : Type} (f : α → Nat) (l : List α) (i : Nat) (a b : α)
    (h : l[i]? = some a) :
    ((l.set i b).map f).sum + f a = (l.map f).sum + f b := by
  induction l generalizing i with
  | nil => simp at h
  | cons x xs ih =>
    cases i with
    | zero =>
      simp only [List.getElem?_cons_zero, Option.some.injEq] at h
      subst h
      simp only [List.set_cons_zero, List.map_cons, List.sum_cons]
      omega
    | succ j =>
      simp only [List.getElem?_cons_succ] at h
      have := ih j h
      simp only [List.set_cons_succ, List.map_cons, List.sum_cons]
      omega

theorem forall₂_getElem? {α β : Type} (R : α → β → Prop) (l : List α) (m : List β)
    (h : List.Forall₂ R l m) (i : Nat) (a : α) (ha : l[i]? = some a) :
    ∃ b, m[i]? = some b ∧ R a b := by
  induction h generalizing i with
  | nil => simp at ha
  | cons hab _ ih =>
    cases i with
    | zero =>
      simp only [List.getElem?_cons_zero, Option.some.injEq] at ha
      subst ha
      exact ⟨_, List.getElem?_cons_zero, hab⟩
    | succ j =>
      simp only [List.getElem?_cons_succ] at ha ⊢
      exact ih j ha

theorem forall₂_set {α β : Type} (R : α → β → Prop) (l : List α) (m : List β)
    (h : List.Forall₂ R l m) (i : Nat) (a : α) (b : β) (hab : R a b) :
    List.Forall₂ R (l.set i a) (m.set i b) := by
  induction h generalizing i with
  | nil => exact List.Forall₂.nil
  | cons hxy hrest ih =>
    cases i with
    | zero => exact List.Forall₂.cons hab hrest
    | succ j => exact List.Forall₂.cons hxy (ih j)

theorem names_cons {l : Listing} {d : CString} {ns : List CString} (h : d :: ns = l.names) :
    (∃ l', l = Listing.file d l' ∧ ns = l'.names) ∨
      (∃ r cs l', l = Listing.dir d r cs l' ∧ ns = l'.names) := by
  cases l with
  | nil => simp [Listing.names] at h
  | file name rest =>
    simp only [Listing.names, List.cons.injEq] at h
    obtain ⟨rfl, rfl⟩ := h
    exact Or.inl ⟨rest, rfl, rfl⟩
  | dir name readable children rest =>
    simp only [Listing.names, List.cons.injEq] at h
    obtain ⟨rfl, rfl⟩ := h
    exact Or.inr ⟨readable, children, rest, rfl, rfl⟩

theorem worker_thread_accounted (fuel : Nat) (fs : FileSystem) (s s1 : State) (w w1 : Worker)
    (o : List CString) (pending : List (CString × Listing))
    (h : worker_thread fuel fs s w = some (s1, w1))
    (hq : s.work_queue.WF) (hc : s.work_queue.contents = pending.map Prod.fst)
    (hp : ∀ pl ∈ pending, dir_ok fs pl ∧ pl.1.length < MAX_PATH_LENGTH)
    (ho : owes fs w o) :
    ∃ pending' o', s1.work_queue.WF ∧ s1.work_queue.contents = pending'.map Prod.fst ∧
      (∀ pl ∈ pending', dir_ok fs pl ∧ pl.1.length < MAX_PATH_LENGTH) ∧ owes fs w1 o' ∧
      ∀ x, s1.process_file_calls.count x + (pending_paths pending').count x + o'.count x ≤
        s.process_file_calls.count x + (pending_paths pending).count x + o.count x := by
  obtain ⟨loc, path, stats⟩ := w
  cases loc with
  | loop_top =>
    simp only [worker_thread] at h
    split at h <;>
    · simp only [Option.some.injEq, Prod.mk.injEq] at h
      obtain ⟨rfl, rfl⟩ := h
      exact ⟨pending, [], WF_with_waiting _ _ hq, hc, hp, by simp [owes], fun x => by simp⟩
  | in_pop =>
    simp only [worker_thread] at h
    split at h
    · simp at h
    · by_cases hc0 : s.work_queue.count = 0
      · have hleave : queue_pop_leave s.work_queue path =
            ({ s.work_queue with waiting_threads := s.work_queue.waiting_threads - 1 }, 0,
              path) := by
          simp [queue_pop_leave, hc0]
        simp only [hleave, beq_self_eq_true, if_true, Option.some.injEq, Prod.mk.injEq] at h
        obtain ⟨rfl, rfl⟩ := h
        exact ⟨pending, [], WF_with_waiting _ _ hq, hc, hp, by simp [owes], fun x => by simp⟩
      · have hpos : 0 < s.work_queue.count := by
          have := hq.count_lo
          omega
        obtain ⟨q', hleave, hq', hcont, -⟩ := queue_pop_leave_spec s.work_queue path hq hpos
        rw [hc] at hcont
        cases pending with
        | nil => simp at hcont
        | cons pl rest =>
          obtain ⟨p, l'⟩ := pl
          simp only [List.map_cons, List.cons.injEq] at hcont
          obtain ⟨hp1, hrest⟩ := hcont
          obtain ⟨hok, hplen⟩ := hp (p, l') (List.mem_cons_self _ _)
          rw [← hp1, strncpy_of_le (Nat.le_of_lt hplen)] at hleave
          simp only [hleave] at h
          have h10 : ((1 : Int) == 0) = false := by decide
          simp only [h10, Bool.false_eq_true, if_false, Option.some.injEq, Prod.mk.injEq] at h
          obtain ⟨rfl, rfl⟩ := h
          refine ⟨rest, l'.paths p, hq', hrest.symm,
            fun pl hpl => hp pl (List.mem_cons_of_mem _ hpl), ?_, ?_⟩
          · exact ⟨l', hok, rfl⟩
          · intro x
            simp only [pending_paths, List.count_append]
            have : o = [] := by simpa [owes] using ho
            subst this
            simp only [List.count_nil]
            omega
  | popped =>
    simp only [worker_thread, Option.some.injEq, Prod.mk.injEq] at h
    obtain ⟨rfl, rfl⟩ := h
    refine ⟨pending, o, WF_with_active _ _ hq, hc, hp, ?_, fun x => le_refl _⟩
    simpa [owes] using ho
  | opening =>
    simp only [owes] at ho
    obtain ⟨l', ⟨⟨r, hopen⟩, hhost⟩, rfl⟩ := ho
    simp only [worker_thread] at h
    cases hod : fs.opendir path with
    | none =>
      simp only [hod, Option.some.injEq, Prod.mk.injEq] at h
      obtain ⟨rfl, rfl⟩ := h
      exact ⟨pending, [], WF_with_active _ _ hq, hc, hp, by simp [owes],
        fun x => by simp only [atomic_fetch_add, List.count_nil]; omega⟩
    | some raw =>
      simp only [hod, Option.some.injEq, Prod.mk.injEq] at h
      obtain ⟨rfl, rfl⟩ := h
      simp only [opens_as, hod, Bool.and_eq_true, decide_eq_true_eq] at hopen
      exact ⟨pending, l'.paths path, hq, hc, hp, ⟨l', hopen.2, hhost, rfl⟩,
        fun x => le_refl _⟩
  | reading entries =>
    simp only [owes] at ho
    obtain ⟨l', hnames, hhost, rfl⟩ := ho
    cases entries with
    | nil =>
      simp only [worker_thread, Option.some.injEq, Prod.mk.injEq] at h
      obtain ⟨rfl, rfl⟩ := h
      exact ⟨pending, [], hq, hc, hp, by simp [owes],
        fun x => by simp only [List.count_nil]; omega⟩
    | cons d rest =>
      simp only [worker_thread] at h
      split at h
      · -- shutdown requested: the loop is left
        simp only [Option.some.injEq, Prod.mk.injEq] at h
        obtain ⟨rfl, rfl⟩ := h
        exact ⟨pending, [], hq, hc, hp, by simp [owes],
          fun x => by simp only [List.count_nil]; omega⟩
      · split at h
        · -- `.` or `..`
          rename_i hdot
          simp only [Option.some.injEq, Prod.mk.injEq] at h
          obtain ⟨rfl, rfl⟩ := h
          have hnd : not_dot d = false := by simp [not_dot, hdot]
          have hnd' : ¬ (not_dot d = true) := by simp [hnd]
          rw [List.filter_cons_of_neg hnd'] at hnames
          exact ⟨pending, l'.paths path, hq, hc, hp, ⟨l', hnames, hhost, rfl⟩,
            fun x => le_refl _⟩
        · rename_i hdot
          have hnd : not_dot d = true := (not_dot_iff d).mpr hdot
          rw [List.filter_cons_of_pos hnd] at hnames
          rcases names_cons hnames with ⟨l'', rfl, hn''⟩ | ⟨r, cs, l'', rfl, hn''⟩
          · -- a file
            simp only [FileSystem.hosts_entries, Bool.and_eq_true, decide_eq_true_eq] at hhost
            obtain ⟨hstat, hhost''⟩ := hhost
            split at h
            · simp only [Option.some.injEq, Prod.mk.injEq] at h
              obtain ⟨rfl, rfl⟩ := h
              exact ⟨pending, l''.paths path, hq, hc, hp, ⟨l'', hn'', hhost'', rfl⟩,
                fun x => by simp only [Listing.paths, List.count_cons]; omega⟩
            · simp only [hstat, Bool.false_eq_true, if_false, Option.some.injEq,
                Prod.mk.injEq] at h
              obtain ⟨rfl, rfl⟩ := h
              refine ⟨pending, l''.paths path, hq, hc, hp, ⟨l'', hn'', hhost'', rfl⟩, ?_⟩
              intro x
              simp only [process_file, Listing.paths, List.count_append, List.count_cons,
                List.count_nil]
              omega
          · -- a directory
            simp only [FileSystem.hosts_entries, Bool.and_eq_true, decide_eq_true_eq] at hhost
            obtain ⟨⟨⟨hstat, hopen⟩, hch⟩, hhost''⟩ := hhost
            split at h
            · simp only [Option.some.injEq, Prod.mk.injEq] at h
              obtain ⟨rfl, rfl⟩ := h
              exact ⟨pending, l''.paths path, hq, hc, hp, ⟨l'', hn'', hhost'', rfl⟩,
                fun x => by
                  simp only [Listing.paths, List.count_cons, List.count_append]; omega⟩
            · rename_i hfit
              simp only [hstat, if_true, Option.some.injEq, Prod.mk.injEq] at h
              obtain ⟨rfl, rfl⟩ := h
              refine ⟨pending, cs.paths (join_path path d) ++ l''.paths path, hq, hc, hp,
                ⟨l'', cs, hn'', hhost'', ⟨⟨r, hopen⟩, hch⟩, by omega, rfl⟩, ?_⟩
              intro x
              simp only [process_file, Listing.paths, List.count_append, List.count_cons,
                List.count_nil]
              omega
  | pushing rest full_path =>
    simp only [owes] at ho
    obtain ⟨l', cs, hnames, hhost, hok, hfit, rfl⟩ := ho
    simp only [worker_thread] at h
    cases hpush : queue_push fuel s.running s.work_queue full_path with
    | none => simp [hpush] at h
    | some q1 =>
      simp only [hpush, Option.some.injEq, Prod.mk.injEq] at h
      obtain ⟨rfl, rfl⟩ := h
      cases hrun : s.running with
      | false =>
        rw [hrun, queue_push_shutdown_eq] at hpush
        simp only [Option.some.injEq] at hpush
        subst hpush
        refine ⟨pending, l'.paths path, hq, hc, hp, ⟨l', hnames, hhost, rfl⟩, ?_⟩
        intro x
        simp only [List.count_append]
        omega
      | true =>
        rw [hrun] at hpush
        have hs : ∀ x ∈ s.work_queue.contents, x.length ≤ MAX_PATH_LENGTH := by
          intro x hx
          rw [hc] at hx
          obtain ⟨pl, hmem, rfl⟩ := List.mem_map.mp hx
          exact Nat.le_of_lt (hp pl hmem).2
        obtain ⟨hq1, hc1⟩ := queue_push_running_any_fuel fuel s.work_queue q1 full_path hq hs
          hfit hpush
        refine ⟨pending ++ [(full_path, cs)], l'.paths path, hq1, ?_, ?_,
          ⟨l', hnames, hhost, rfl⟩, ?_⟩
        · rw [hc1, hc]
          simp
        · intro pl hpl
          rcases List.mem_append.mp hpl with h1 | h1
          · exact hp pl h1
          · have : pl = (full_path, cs) := by simpa using h1
            subst this
            exact ⟨hok, hfit⟩
        · intro x
          rw [pending_paths_append]
          simp only [pending_paths, List.count_append, List.append_nil]
          omega
  | closing =>
    simp only [worker_thread, Option.some.injEq, Prod.mk.injEq] at h
    obtain ⟨rfl, rfl⟩ := h
    exact ⟨pending, [], WF_with_active _ _ hq, hc, hp, by simp [owes],
      fun x => by simp only [atomic_fetch_add, List.count_nil]; omega⟩
  | checking =>
    simp only [worker_thread, Option.some.injEq, Prod.mk.injEq] at h
    obtain ⟨rfl, rfl⟩ := h
    have e1 : (check_termination_condition s).work_queue = s.work_queue := by
      simp only [check_termination_condition, handle_signal]
      split <;> rfl
    have e2 : (check_termination_condition s).process_file_calls = s.process_file_calls := by
      simp only [check_termination_condition, handle_signal]
      split <;> rfl
    rw [e1, e2]
    exact ⟨pending, [], hq, hc, hp, by simp [owes],
      fun x => by simp only [List.count_nil]; omega⟩
  | exited => simp [worker_thread] at h

theorem forall₂_replicate {α β : Type} (R : α → β → Prop) (n : Nat) (a : α) (b : β)
    (h : R a b) : List.Forall₂ R (List.replicate n a) (List.replicate n b) := by
  induction n with
  | zero => exact List.Forall₂.nil
  | succ k ih => exact List.Forall₂.cons h ih

theorem sum_replicate_nil (n : Nat) (x : CString) :
    ((List.replicate n ([] : List CString)).map (List.count x)).sum = 0 := by
  induction n with
  | zero => rfl
  | succ k ih => simp [List.replicate_succ]

theorem worker_thread_workers (fuel : Nat) (fs : FileSystem) (s s1 : State) (w w1 : Worker)
    (h : worker_thread fuel fs s w = some (s1, w1)) : s1.workers = s.workers :=
  (worker_thread_accounting fuel fs s s1 w w1 h).1

theorem step_accounted (fuel : Nat) (fs : FileSystem) (root : CString) (l : Listing) (i : Nat)
    (s s' : State) (h : step fuel fs i s = some s') (hinv : accounted fs root l s) :
    accounted fs root l s' := by
  obtain ⟨hq, pending, owed, hc, hp, hall, hcount⟩ := hinv
  unfold step at h
  cases hw : s.workers[i]? with
  | none => simp [hw] at h
  | some w =>
    simp only [hw] at h
    cases hs : worker_thread fuel fs s w with
    | none => simp [hs] at h
    | some r =>
      obtain ⟨s1, w1⟩ := r
      simp only [hs, Option.some.injEq] at h
      subst h
      obtain ⟨o, ho, hwo⟩ := forall₂_getElem? (owes fs) s.workers owed hall i w hw
      obtain ⟨pending', o', hq', hc', hp', ho', hle⟩ :=
        worker_thread_accounted fuel fs s s1 w w1 o pending hs hq hc hp hwo
      have hws := worker_thread_workers fuel fs s s1 w w1 hs
      refine ⟨hq', pending', owed.set i o', hc', hp', ?_, ?_⟩
      · show List.Forall₂ (owes fs) (s1.workers.set i w1) (owed.set i o')
        rw [hws]
        exact forall₂_set (owes fs) s.workers owed hall i w1 o' ho'
      · intro x
        have h1 := sum_map_set_of_getElem? (List.count x) owed i o o' ho
        have h2 := hle x
        have h3 := hcount x
        show List.count x s1.process_file_calls + _ + _ ≤ _
        omega

theorem main_accounted (fs : FileSystem) (root : CString) (l : Listing) (n : Nat) (s0 : State)
    (hroot : root.length < MAX_PATH_LENGTH) (hhost : fs.hosts root l = true)
    (h0 : main root n = some s0) : accounted fs root l s0 := by
  obtain ⟨q0, e0, hq0, -, hc0⟩ := main_eq root n
  rw [e0] at h0
  simp only [Option.some.injEq] at h0
  subst h0
  rw [strncpy_of_le (by omega)] at hc0
  simp only [FileSystem.hosts, Bool.and_eq_true] at hhost
  refine ⟨hq0, [(root, l)], List.replicate n [], by simpa using hc0, ?_, ?_, ?_⟩
  · intro pl hpl
    have : pl = (root, l) := by simpa using hpl
    subst this
    exact ⟨⟨⟨true, hhost.1⟩, hhost.2⟩, hroot⟩
  · exact forall₂_replicate (owes fs) n _ [] (by simp [owes])
  · intro x
    simp [pending_paths, sum_replicate_nil]

theorem reachable_accounted (fuel : Nat) (fs : FileSystem) (root : CString) (l : Listing)
    (n : Nat) (s0 s : State) (hroot : root.length < MAX_PATH_LENGTH)
    (hhost : fs.hosts root l = true) (h0 : main root n = some s0)
    (hr : Reachable fuel fs s0 s) : accounted fs root l s := by
  induction hr with
  | start => exact main_accounted fs root l n s0 hroot hhost h0
  | next s s' e _ he ih =>
    cases e with
    | worker i => exact step_accounted fuel fs root l i s s' he ih
    | signal =>
      simp only [Event.apply, Option.some.injEq] at he
      subst he
      exact ih

theorem calls_at_most_once (fuel : Nat) (fs : FileSystem) (root : CString) (l : Listing)
    (n : Nat) (s0 s : State) (hroot : root.length < MAX_PATH_LENGTH)
    (hhost : fs.hosts root l = true) (h0 : main root n = some s0)
    (hr : Reachable fuel fs s0 s) (x : CString) :
    s.process_file_calls.count x ≤ (l.paths root).count x := by
  obtain ⟨-, pending, owed, -, -, -, hcount⟩ :=
    reachable_accounted fuel fs root l n s0 s hroot hhost h0 hr
  have := hcount x
  omega

/-! ## Claims about the work queue -/

/-- C1: from `queue_init c` with `c ≥ 1` and the shutdown flag clear, pushing any list of
paths, each shorter than `MAX_PATH_LENGTH`, and then popping as many times as there are
paths makes every `queue_pop` return 1 and delivers the paths in the order they were pushed,
however many times the buffer had to grow. -/
theorem queue_fifo_under_growth (c : Int) (hc : 1 ≤ c) (paths : List CString)
    (hp : ∀ p ∈ paths, p.length < MAX_PATH_LENGTH) (fuel : Nat) (hf : 1 ≤ fuel) :
    ∃ q1 q2, push_all fuel (queue_init c) paths = some q1 ∧
      pop_n true paths.length q1 = some (q2, paths.map (fun p => ((1 : Int), p))) := by
  obtain ⟨q1, e1, hq1, hc1⟩ := push_all_spec fuel hf paths hp (queue_init c)
    (queue_init_WF c hc) (by simp [queue_init_contents])
  rw [queue_init_contents, List.nil_append] at hc1
  obtain ⟨q2, e2, -⟩ := pop_n_spec true paths q1 hq1 hc1 (fun s hs => Nat.le_of_lt (hp s hs))
  exact ⟨q1, q2, e1, e2⟩

/-- Instance of C1: five paths through a queue of initial capacity 2, which grows twice. -/
theorem queue_fifo_under_growth_witness :
    ∃ q1 q2, push_all 1 (queue_init 2) ["/a".toList, "/b".toList, "/c".toList, "/d".toList,
        "/e".toList] = some q1 ∧
      pop_n true 5 q1 = some (q2, [(1, "/a".toList), (1, "/b".toList), (1, "/c".toList),
        (1, "/d".toList), (1, "/e".toList)]) :=
  queue_fifo_under_growth 2 (by decide)
    ["/a".toList, "/b".toList, "/c".toList, "/d".toList, "/e".toList] (by decide) 1 (by decide)

/-- C6: `queue_pop` blocks exactly when it finds the queue empty with the flag still set to
running; when it returns, it returns 0 if and only if shutdown is requested and the count it
found is 0, and then the queue and the caller's buffer are as before the call; on a
non-empty queue it returns 1 with the string stored at `front`, whatever the flag. -/
theorem queue_pop_empty_iff_shutdown_drained (running : Bool) (q : WorkQueue) (buf : CString) :
    (queue_pop running q buf = none ↔ (q.count = 0 ∧ running = true)) ∧
    (∀ q' ret buf', queue_pop running q buf = some (q', ret, buf') →
      (ret = 0 ∨ ret = 1) ∧
      (ret = 0 ↔ (running = false ∧ q.count = 0)) ∧
      (ret = 0 → q' = q ∧ q'.count = 0 ∧ buf' = buf)) ∧
    (q.count ≠ 0 → ∃ q', queue_pop running q buf =
        some (q', 1, strncpy (q.slot q.front) MAX_PATH_LENGTH) ∧
      q'.count = q.count - 1 ∧ q'.capacity = q.capacity ∧ q'.paths = q.paths ∧
      (q.Buffers → strncpy (q.slot q.front) MAX_PATH_LENGTH = q.slot q.front)) := by
  refine ⟨?_, ?_, ?_⟩
  · simp [queue_pop, queue_pop_enter, queue_pop_must_wait]
  · intro q' ret buf' h
    by_cases hc : q.count = 0
    · cases running with
      | true => simp [queue_pop, queue_pop_enter, queue_pop_must_wait, hc] at h
      | false =>
        have hc' : (q.count == 0) = true := by simpa using hc
        simp only [queue_pop, queue_pop_enter, queue_pop_must_wait, queue_pop_leave, hc',
          Bool.and_false, Bool.false_eq_true, if_false, if_true,
          Option.some.injEq, Prod.mk.injEq] at h
        obtain ⟨h1, h2, h3⟩ := h
        have hq : q' = q := by
          rw [← h1]
          cases q
          simp
        subst hq
        exact ⟨Or.inl h2.symm, by simp [← h2, hc], fun _ => ⟨rfl, hc, h3.symm⟩⟩
    · have hne : (q.count == 0) = false := by simpa using hc
      simp only [queue_pop, queue_pop_enter, queue_pop_must_wait, queue_pop_leave, hne,
        Bool.false_and, Bool.false_eq_true, if_false, Option.some.injEq, Prod.mk.injEq] at h
      obtain ⟨h1, h2, h3⟩ := h
      subst h1 h2 h3
      simp [hc]
  · intro hc
    have hne : (q.count == 0) = false := by simpa using hc
    refine ⟨{ q with front := (q.front + 1).tmod q.capacity, count := q.count - 1 }, ?_, rfl,
      rfl, rfl, fun hb => strncpy_of_le (hb.slot_le q.front)⟩
    simp [queue_pop, queue_pop_enter, queue_pop_must_wait, queue_pop_leave, hc]

/-- C7: `queue_push` called while shutdown is requested returns the queue it was given:
paths, front, rear, count and capacity are unchanged, also when the queue is full. -/
theorem queue_push_after_shutdown (fuel : Nat) (q : WorkQueue) (path : CString) :
    queue_push fuel false q path = some q := by
  simp [queue_push, queue_push_grow_shutdown]

/-- C8: after any sequence of `queue_push`, `queue_pop` and `queue_resize` calls from
`queue_init c` with `c ≥ 1`, whatever value of the flag each call sees, the ring invariant
holds, in particular `0 ≤ count ≤ capacity`; any further calls leave the capacity at least
as large, a power of two times what it was, and a single call either keeps the capacity or
doubles it, a push doubling it only when the queue is full. -/
theorem queue_count_capacity_invariant (c : Int) (hc : 1 ≤ c) (fuel : Nat) (hf : 1 ≤ fuel)
    (calls more : List Call) :
    ∃ q q', run_calls fuel calls (queue_init c) = some q ∧
      run_calls fuel (calls ++ more) (queue_init c) = some q' ∧
      q.WF ∧ 0 ≤ q.count ∧ q.count ≤ q.capacity ∧ 1 ≤ q.capacity ∧
      q.capacity ≤ q'.capacity ∧ (∃ k : Nat, q'.capacity = 2 ^ k * q.capacity) ∧
      ∀ call : Call, ∃ q'', call.apply fuel q = some q'' ∧
        (q''.capacity = q.capacity ∨
          (q''.capacity = 2 * q.capacity ∧ (call = Call.resize ∨ q.count = q.capacity))) := by
  obtain ⟨q, e, hq, -⟩ := run_calls_WF fuel hf calls (queue_init c) (queue_init_WF c hc)
  obtain ⟨q', e', -, k, hk⟩ := run_calls_WF fuel hf more q hq
  refine ⟨q, q', e, ?_, hq, hq.count_lo, hq.count_hi, hq.cap_pos, ?_, ⟨k, hk⟩, ?_⟩
  · rw [run_calls_append, e]
    exact e'
  · rw [hk]
    have h1 := hq.cap_pos
    have h2 : (1 : Int) ≤ 2 ^ k := one_le_pow₀ (by norm_num : (1 : Int) ≤ 2)
    nlinarith
  · intro call
    obtain ⟨q'', e'', -, h''⟩ := Call.apply_WF fuel hf call q hq
    exact ⟨q'', e'', h''⟩

/-- Instance of C8: a queue of initial capacity 1 that is pushed, popped and resized, with
and without shutdown. -/
theorem queue_count_capacity_invariant_witness :
    ∃ q q', run_calls 1 [Call.push true "/a".toList, Call.push true "/b".toList, Call.pop true]
        (queue_init 1) = some q ∧
      run_calls 1 ([Call.push true "/a".toList, Call.push true "/b".toList, Call.pop true] ++
        [Call.resize, Call.pop false, Call.pop false, Call.push false "/c".toList])
        (queue_init 1) = some q' ∧
      q.WF ∧ 0 ≤ q.count ∧ q.count ≤ q.capacity ∧ 1 ≤ q.capacity ∧
      q.capacity ≤ q'.capacity ∧ (∃ k : Nat, q'.capacity = 2 ^ k * q.capacity) ∧
      ∀ call : Call, ∃ q'', call.apply 1 q = some q'' ∧
        (q''.capacity = q.capacity ∨
          (q''.capacity = 2 * q.capacity ∧ (call = Call.resize ∨ q.count = q.capacity))) :=
  queue_count_capacity_invariant 1 (by decide) 1 (by decide)
    [Call.push true "/a".toList, Call.push true "/b".toList, Call.pop true]
    [Call.resize, Call.pop false, Call.pop false, Call.push false "/c".toList]

/-- C10: on a full queue of capacity `c ≥ 1` with `front` anywhere in `[0, c)`,
`queue_resize` gives capacity `2c`, `front = 0`, `rear = count - 1`, the same count, and new
slot `i` holds, for every `i < count`, what old slot `(front + i) mod c` held; the queue's
content in FIFO order is unchanged. -/
theorem queue_resize_preserves_fifo (q : WorkQueue) (c : Int) (hc : 1 ≤ c)
    (hcap : q.capacity = c) (hfull : q.count = c) (hf0 : 0 ≤ q.front) (hf1 : q.front < c)
    (hb : q.Buffers) :
    (queue_resize q).capacity = 2 * c ∧ (queue_resize q).front = 0 ∧
      (queue_resize q).rear = q.count - 1 ∧ (queue_resize q).count = q.count ∧
      (∀ i : Nat, (i : Int) < q.count →
        (queue_resize q).slot (i : Int) = q.slot ((q.front + (i : Int)) % c)) ∧
      (queue_resize q).contents = q.contents := by
  have _ := hf1
  refine ⟨?_, rfl, rfl, rfl, ?_, ?_⟩
  · show q.capacity * 2 = 2 * c
    omega
  · intro i hi
    rw [queue_resize_slot q i hi (by omega), strncpy_of_le (hb.slot_le _), hcap,
      Int.tmod_eq_emod (by omega) (by omega)]
  · rw [queue_resize_contents_of_le q (by omega)]
    conv_rhs => rw [← List.map_id q.contents]
    apply List.map_congr_left
    intro s hs
    obtain ⟨i, -, rfl⟩ := List.mem_map.mp hs
    exact strncpy_of_le (hb.slot_le _)

/-- Instance of C10: the full queue `wrapped_queue`, whose `front` is 1. -/
theorem queue_resize_preserves_fifo_witness :
    (queue_resize wrapped_queue).capacity = 2 * 3 ∧ (queue_resize wrapped_queue).front = 0 ∧
      (queue_resize wrapped_queue).rear = wrapped_queue.count - 1 ∧
      (queue_resize wrapped_queue).count = wrapped_queue.count ∧
      (∀ i : Nat, (i : Int) < wrapped_queue.count →
        (queue_resize wrapped_queue).slot (i : Int) =
          wrapped_queue.slot ((wrapped_queue.front + (i : Int)) % 3)) ∧
      (queue_resize wrapped_queue).contents = wrapped_queue.contents :=
  queue_resize_preserves_fifo wrapped_queue 3 (by decide) rfl rfl (by decide) (by decide)
    (by decide)

/-! ## Claims about the worker loop and the termination protocol -/

/-- C9: in every state the engine can reach, with any number of workers, any file system
and signals arriving at any time, `active_processes` equals the number of workers that have
executed their increment and not yet their decrement (they are opening, reading, pushing or
closing a directory), so every increment is matched by one decrement on each path through
the loop body, and the counter is never negative. -/
theorem active_processes_accounting (fuel : Nat) (fs : FileSystem) (root : CString) (n : Nat)
    (s0 s : State) (h0 : main root n = some s0) (hr : Reachable fuel fs s0 s) :
    s.work_queue.active_processes = (s.workers.countP Worker.counted : Int) ∧
      0 ≤ s.work_queue.active_processes := by
  have key : s.work_queue.active_processes = (s.workers.countP Worker.counted : Int) := by
    induction hr with
    | start =>
      obtain ⟨q, e, -, ha, -⟩ := main_eq root n
      rw [e] at h0
      simp only [Option.some.injEq] at h0
      subst h0
      have hz : List.countP Worker.counted (List.replicate n
          ({ loc := Loc.loop_top, path := [], stats := ⟨0, 0⟩ } : Worker)) = 0 := by
        rw [List.countP_eq_zero]
        intro a hmem
        rw [List.eq_of_mem_replicate hmem]
        simp [Worker.counted]
      simp only [ha, hz]
      rfl
    | next s s' e _ he ih =>
      cases e with
      | worker i => exact step_accounting fuel fs i s s' he ih
      | signal =>
        simp only [Event.apply, Option.some.injEq] at he
        subst he
        exact ih
  exact ⟨key, by rw [key]; exact Int.natCast_nonneg _⟩

/-- Instance of C9: the example tree with the eight workers of `main`, after worker 0 has
opened the root and worker 1 has called `queue_pop`. -/
theorem active_processes_accounting_witness :
    (Option.get ((main "root".toList MAX_THREADS).bind
        (run_events 1 (tree_fs "root".toList example_tree) (steps_of 0 4 ++ steps_of 1 1)))
        (by decide!)).work_queue.active_processes =
      ((Option.get ((main "root".toList MAX_THREADS).bind
        (run_events 1 (tree_fs "root".toList example_tree) (steps_of 0 4 ++ steps_of 1 1)))
        (by decide!)).workers.countP Worker.counted : Int) ∧
    0 ≤ (Option.get ((main "root".toList MAX_THREADS).bind
        (run_events 1 (tree_fs "root".toList example_tree) (steps_of 0 4 ++ steps_of 1 1)))
        (by decide!)).work_queue.active_processes :=
  active_processes_accounting 1 (tree_fs "root".toList example_tree) "root".toList MAX_THREADS
    (Option.get (main "root".toList MAX_THREADS) (by decide!)) _
    (Option.some_get _).symm
    (reachable_of_run_events 1 _ _ (steps_of 0 4 ++ steps_of 1 1) _ _ Reachable.start
      (by decide!))

/-- C3: the code lets the termination check fire while work is pending.  On the example
tree with the eight workers of `main` and no signal from outside, worker 0 reaches
`check_termination_condition` with `active_processes = 0` and `count = 0` while worker 1 has
popped `root/sub` and has not yet incremented the counter; the check clears `running`,
worker 1 then leaves the directory unread, every worker exits, and `root/sub/b.log` is
never passed to `process_file`. -/
theorem termination_check_fires_early :
    (tree_fs "root".toList example_tree).hosts "root".toList example_tree = true ∧
    early_check_state.map (fun s => (s.running, s.work_queue.active_processes,
      s.work_queue.count)) = some (true, 0, 0) ∧
    early_check_state.map (fun s => s.workers.map (fun w => (w.loc, w.path))) =
      some [(Loc.checking, "root".toList), (Loc.popped, "root/sub".toList),
        (Loc.loop_top, []), (Loc.loop_top, []), (Loc.loop_top, []), (Loc.loop_top, []),
        (Loc.loop_top, []), (Loc.loop_top, [])] ∧
    (tree_fs "root".toList example_tree).opendir "root/sub".toList =
      some [['.'], ['.', '.'], "b.log".toList] ∧
    (early_check_state.bind (step 1 (tree_fs "root".toList example_tree) 0)).map
      (fun s => (s.running, s.workers.map (fun w => w.loc))) =
      some (false, [Loc.loop_top, Loc.popped, Loc.loop_top, Loc.loop_top, Loc.loop_top,
        Loc.loop_top, Loc.loop_top, Loc.loop_top]) ∧
    ((early_check_state.bind (step 1 (tree_fs "root".toList example_tree) 0)).bind
        (run_events 1 (tree_fs "root".toList example_tree) early_check_rest)).map
      (fun s => (s.workers.map (fun w => w.loc), s.process_file_calls)) =
      some (List.replicate 8 Loc.exited, ["root/a.txt".toList, "root/sub".toList]) := by
  refine ⟨?_, ?_, ?_, ?_, ?_, ?_⟩ <;> decide!

/-- C4: the code can deadlock.  On a tree whose root holds one directory that cannot be
opened, with no signal from outside, worker 0 traverses the root, fails to open `root/sub`,
decrements the counter and goes back to `queue_pop` without running the termination check;
with the other seven workers in `queue_pop` too, `running` is still set, the queue is empty,
`active_processes` is 0 and no worker has a step left. -/
theorem deadlock_after_unreadable_directory :
    (tree_fs "root".toList locked_tree).hosts "root".toList locked_tree = true ∧
    ∃ s, stuck_state = some s ∧
      s.running = true ∧ s.work_queue.count = 0 ∧ s.work_queue.active_processes = 0 ∧
      s.workers.map (fun w => w.loc) = List.replicate 8 Loc.in_pop ∧
      s.process_file_calls = ["root/sub".toList] ∧
      ∀ (fuel i : Nat), step fuel (tree_fs "root".toList locked_tree) i s = none := by
  refine ⟨by decide!, Option.get stuck_state (by decide!), (Option.some_get _).symm,
    by decide!, by decide!, by decide!, by decide!, by decide!, ?_⟩
  intro fuel i
  exact step_none_of_all_waiting fuel _ _ (by decide!) (by decide!) i

/-- C5, as stated, fails: a signal arrives while worker 0 is enumerating the root of the
example tree, after `a.txt` and before `sub`; the worker leaves the `readdir` loop at once,
closes the directory and exits, and `root/sub` is never passed to `process_file`. -/
theorem shutdown_aborts_enumeration :
    ((main "root".toList 1).bind
        (run_events 1 (tree_fs "root".toList example_tree) (steps_of 0 7))).map
      (fun s => (s.running, s.workers.map (fun w => w.loc), s.process_file_calls)) =
      some (true, [Loc.reading ["sub".toList]], ["root/a.txt".toList]) ∧
    ((main "root".toList 1).bind
        (run_events 1 (tree_fs "root".toList example_tree) interrupted_schedule)).map
      (fun s => (s.running, s.workers.map (fun w => w.loc), s.process_file_calls)) =
      some (false, [Loc.exited], ["root/a.txt".toList]) := by
  refine ⟨?_, ?_⟩ <;> decide!

/-- C5, amended: once shutdown is requested, a worker that is in the `readdir` loop leaves it
at its next check, whatever entries remain: it closes the directory, decrements
`active_processes`, runs the termination check and exits, with no further `process_file`
call and no change to the queue's paths, front, rear, count or capacity.  If the request
arrives between `process_file` and `queue_push` for a subdirectory, that entry is completed
by a `queue_push` that stores nothing, and the worker then leaves in the same way. -/
theorem shutdown_stops_enumeration (fuel : Nat) (fs : FileSystem) (s : State) (i : Nat)
    (w : Worker) (entries : List CString) (hw : s.workers[i]? = some w)
    (hr : s.running = false) :
    (w.loc = Loc.reading entries →
      run_events fuel fs (steps_of i 4) s =
        some { s with
          work_queue := { s.work_queue with
            active_processes := s.work_queue.active_processes + -1 }
          workers := s.workers.set i { w with loc := Loc.exited } }) ∧
    (∀ full_path, w.loc = Loc.pushing entries full_path →
      run_events fuel fs (steps_of i 5) s =
        some { s with
          work_queue := { s.work_queue with
            active_processes := s.work_queue.active_processes + -1 }
          workers := s.workers.set i { w with loc := Loc.exited } }) := by
  have reading : ∀ (s : State) (w : Worker), s.workers[i]? = some w → s.running = false →
      w.loc = Loc.reading entries →
      run_events fuel fs (steps_of i 4) s =
        some { s with
          work_queue := { s.work_queue with
            active_processes := s.work_queue.active_processes + -1 }
          workers := s.workers.set i { w with loc := Loc.exited } } := by
    intro s w hw hr hl
    obtain ⟨loc, path, stats⟩ := w
    simp only at hl
    subst hl
    have h1 : step fuel fs i s =
        some { s with workers := s.workers.set i ⟨Loc.closing, path, stats⟩ } := by
      apply step_of_worker_thread fuel fs i s s _ _ hw
      cases entries <;> simp [worker_thread, hr]
    have e4 : steps_of i 4 = Event.worker i :: steps_of i 3 := rfl
    rw [e4, run_events_worker_cons fuel fs i _ s _ h1,
      leave_after_shutdown fuel fs
        { s with workers := s.workers.set i ⟨Loc.closing, path, stats⟩ } i
        ⟨Loc.closing, path, stats⟩ (getElem?_set_of_getElem? s.workers i _ _ hw) rfl hr]
    simp [List.set_set]
  refine ⟨reading s w hw hr, ?_⟩
  intro full_path hl
  obtain ⟨loc, path, stats⟩ := w
  simp only at hl
  subst hl
  have h1 : step fuel fs i s =
      some { s with workers := s.workers.set i ⟨Loc.reading entries, path, stats⟩ } := by
    apply step_of_worker_thread fuel fs i s s _ _ hw
    obtain ⟨q, r, ws, calls⟩ := s
    simp only at hr
    subst hr
    simp [worker_thread, queue_push_shutdown_eq]
  have e5 : steps_of i 5 = Event.worker i :: steps_of i 4 := rfl
  rw [e5, run_events_worker_cons fuel fs i _ s _ h1,
    reading { s with workers := s.workers.set i ⟨Loc.reading entries, path, stats⟩ }
      ⟨Loc.reading entries, path, stats⟩ (getElem?_set_of_getElem? s.workers i _ _ hw) hr rfl]
  simp [List.set_set]

/-- Instance of C5, amended: the worker of `interrupted_state` is in the `readdir` loop of the
root with `sub` still to be read when the signal arrives; four steps later it has exited
and `process_file` was not called again. -/
theorem shutdown_stops_enumeration_witness :
    (Option.get interrupted_state (by decide!)).workers[0]? =
      some ⟨Loc.reading ["sub".toList], "root".toList, ⟨1, 0⟩⟩ ∧
    (Option.get interrupted_state (by decide!)).running = false ∧
    (Option.get interrupted_state (by decide!)).process_file_calls = ["root/a.txt".toList] ∧
    run_events 1 (tree_fs "root".toList example_tree) (steps_of 0 4)
        (Option.get interrupted_state (by decide!)) =
      some { Option.get interrupted_state (by decide!) with
        work_queue := { (Option.get interrupted_state (by decide!)).work_queue with
          active_processes :=
            (Option.get interrupted_state (by decide!)).work_queue.active_processes + -1 }
        workers := (Option.get interrupted_state (by decide!)).workers.set 0
          { (⟨Loc.reading ["sub".toList], "root".toList, ⟨1, 0⟩⟩ : Worker) with
            loc := Loc.exited } } :=
  ⟨by decide!, by decide!, by decide!,
    (shutdown_stops_enumeration 1 (tree_fs "root".toList example_tree)
      (Option.get interrupted_state (by decide!)) 0
      ⟨Loc.reading ["sub".toList], "root".toList, ⟨1, 0⟩⟩ ["sub".toList]
      (by decide!) (by decide!)).1 rfl⟩

/-- C2, as stated, fails.  First, on a tree with an unreadable directory `u` holding `x.txt`
and an empty directory `v` (F = 1, D = 3), a single worker calls `process_file` on `root/u`
and `root/v` only, requests shutdown and exits.  Second, on the example tree (F = 2, D = 2)
with the eight workers of `main`, there is a run without any signal from outside in which
every worker exits after `process_file` was called on `root/a.txt` and `root/sub` only. -/
theorem traversal_misses_entries :
    ((tree_fs "root".toList unreadable_tree).hosts "root".toList unreadable_tree = true ∧
      unreadable_tree.files = 1 ∧ unreadable_tree.dirs + 1 = 3 ∧
      ((main "root".toList 1).bind
          (run_solo 1 (tree_fs "root".toList unreadable_tree) 27)).map
        (fun s => (s.running, s.workers.map (fun w => w.loc), s.process_file_calls)) =
        some (false, [Loc.exited], ["root/u".toList, "root/v".toList])) ∧
    ((tree_fs "root".toList example_tree).hosts "root".toList example_tree = true ∧
      example_tree.files = 2 ∧ example_tree.dirs + 1 = 2 ∧
      ((main "root".toList MAX_THREADS).bind
          (run_events 1 (tree_fs "root".toList example_tree)
            (early_check_schedule ++ [Event.worker 0] ++ early_check_rest))).map
        (fun s => (s.running, s.workers.map (fun w => w.loc), s.process_file_calls)) =
        some (false, List.replicate 8 Loc.exited,
          ["root/a.txt".toList, "root/sub".toList])) := by
  refine ⟨⟨?_, ?_, ?_, ?_⟩, ⟨?_, ?_, ?_, ?_⟩⟩ <;> decide!

/-- C2, amended: for every finite static directory tree in which every directory can be
opened, every entry can be examined with `lstat`, and the root path and every entry's path
are shorter than `MAX_PATH_LENGTH`: the traversal loop of `worker_thread`, run by a single
worker from the queue seeded with the root path and with no signal from outside, calls
`process_file` on the F + D - 1 entries below the root, each once (the calls are a
permutation of the entries), and the worker then has requested shutdown and exited; and
with any number of workers, in every interleaving, `process_file` is called on entries of
the tree only and on none more often than it occurs in the tree. -/
theorem traversal_classifies_each_entry_once (fs : FileSystem) (root : CString) (l : Listing)
    (fuel : Nat) (hf : 1 ≤ fuel) (hroot : root.length < MAX_PATH_LENGTH)
    (hhost : fs.hosts root l = true) (hread : l.all_readable = true)
    (hlen : ∀ p ∈ l.paths root, p.length < MAX_PATH_LENGTH) :
    (∃ n s0 s, main root 1 = some s0 ∧ run_solo fuel fs n s0 = some s ∧
      s.running = false ∧ s.workers.map (fun w => w.loc) = [Loc.exited] ∧
      s.process_file_calls.Perm (l.paths root) ∧
      s.process_file_calls.length = l.files + l.dirs ∧
      s.work_queue.count = 0 ∧ s.work_queue.active_processes = 0) ∧
    (∀ (n : Nat) (s0 s : State), main root n = some s0 → Reachable fuel fs s0 s →
      ∀ x, s.process_file_calls.count x ≤ (l.paths root).count x) := by
  refine ⟨?_, fun n s0 s h0 hr x =>
    calls_at_most_once fuel fs root l n s0 s hroot hhost h0 hr x⟩
  obtain ⟨q0, e0, hq0, ha0, hc0⟩ := main_eq root 1
  rw [strncpy_of_le (by omega)] at hc0
  simp only [FileSystem.hosts, Bool.and_eq_true] at hhost
  have htrav : ∀ pl ∈ [(root, l)], traversable fs pl := by
    intro pl hpl
    have : pl = (root, l) := by simpa using hpl
    subst this
    exact ⟨hroot, hhost.1, hhost.2, hread, hlen⟩
  obtain ⟨n, q', w', calls', hrun, hw', hperm, hcount, hactive⟩ := traverse_all fuel hf fs
    (pending_size [(root, l)]) [(root, l)] q0 [] ⟨0, 0⟩ [] le_rfl (by simp) htrav hq0
    (by simpa using hc0) ha0
  have hperm' : calls'.Perm (l.paths root) := by
    simpa [pending_paths] using hperm
  refine ⟨n, _, solo q' false w' ([] ++ calls'), e0, hrun, rfl, ?_, ?_, ?_, hcount, hactive⟩
  · simp [solo, hw']
  · simpa [solo] using hperm'
  · have := hperm'.length_eq
    rw [length_paths] at this
    simpa [solo] using this

/-- Instance of C2, amended: the example tree, whose entries are `root/a.txt`, `root/sub` and
`root/sub/b.log`. -/
theorem traversal_classifies_each_entry_once_witness :
    (∃ n s0 s, main "root".toList 1 = some s0 ∧
      run_solo 1 (tree_fs "root".toList example_tree) n s0 = some s ∧
      s.running = false ∧ s.workers.map (fun w => w.loc) = [Loc.exited] ∧
      s.process_file_calls.Perm
        ["root/a.txt".toList, "root/sub".toList, "root/sub/b.log".toList] ∧
      s.process_file_calls.length = 2 + 1 ∧
      s.work_queue.count = 0 ∧ s.work_queue.active_processes = 0) ∧
    (∀ (n : Nat) (s0 s : State), main "root".toList n = some s0 →
      Reachable 1 (tree_fs "root".toList example_tree) s0 s →
      ∀ x, s.process_file_calls.count x ≤
        ["root/a.txt".toList, "root/sub".toList, "root/sub/b.log".toList].count x) :=
  traversal_classifies_each_entry_once (tree_fs "root".toList example_tree) "root".toList
    example_tree 1 (by decide) (by decide) (by decide!) (by decide!) (by decide!)

/-- The one-worker run on the example tree, step by step: after 23 steps the worker has
exited, `process_file` was called on `root/a.txt`, `root/sub` and `root/sub/b.log` in this
order, and the worker counted 2 files and 1 directory. -/
theorem example_tree_solo_run :
    ((main "root".toList 1).bind
        (run_solo 1 (tree_fs "root".toList example_tree) 23)).map
      (fun s => (s.running, s.workers.map (fun w => (w.loc, w.stats)),
        s.process_file_calls)) =
      some (false, [(Loc.exited, ⟨2, 1⟩)],
        ["root/a.txt".toList, "root/sub".toList, "root/sub/b.log".toList]) := by
  decide!

end Scanner
